import Mathlib

/-!
# Verification of the top-down evaluator core (`v1/topdown/eval.go`)

This file gives a shallow embedding of the parts of the evaluator that the
frozen claims are about, and settles each claim against it.

Modelling conventions, used throughout:

* AST values (`ast.Value`) are embedded as the inductive `Val`.  Terms that
  the claims treat opaquely (locations, tracing, instrumentation timers)
  are dropped: tracing is specified to be a pure side effect, and locations
  only decorate errors, so errors are embedded as kinds (`EErr`).
* The evaluator is written in continuation-passing style over callbacks
  (`iter`).  A child driver's evaluation of a body is embedded by the list
  of solutions it enumerates, in order; the continuation-passing folds in
  the Go source become folds over this list.  Early-exit signalling and
  cancellation are instrumentation of the search order and are not modelled;
  the embeddings correspond to the plain enumerating mode (`findOne = false`).
* Fallible code returns `Except EErr`; "undefined" (failure without error)
  is an `ok` result that does not invoke the continuation.
-/

namespace Spec2Proof

/-- The embedded value model (`ast.Value`): null, booleans, numbers, strings,
arrays, objects (ordered key/value pairs, duplicate keys forbidden), sets. -/
inductive Val : Type where
  | null : Val
  | bool : Bool → Val
  | num : Int → Val
  | str : String → Val
  | arr : List Val → Val
  | obj : List (Val × Val) → Val
  | set : List Val → Val
deriving Repr

mutual

/-- Structural decidable equality for the nested value type (the automatic
deriving handler does not support the nesting under `List`). -/
def Val.decEq (a b : Val) : Decidable (a = b) := by
  cases a <;> cases b <;>
    first
      | exact isTrue rfl
      | exact isFalse (fun h => Val.noConfusion h)
      | skip
  case bool.bool x y =>
    exact decidable_of_iff (x = y) ⟨congrArg Val.bool, fun h => by injection h⟩
  case num.num x y =>
    exact decidable_of_iff (x = y) ⟨congrArg Val.num, fun h => by injection h⟩
  case str.str x y =>
    exact decidable_of_iff (x = y) ⟨congrArg Val.str, fun h => by injection h⟩
  case arr.arr xs ys =>
    haveI : Decidable (xs = ys) := Val.decEqList xs ys
    exact decidable_of_iff (xs = ys) ⟨congrArg Val.arr, fun h => by injection h⟩
  case obj.obj xs ys =>
    haveI : Decidable (xs = ys) := Val.decEqKVList xs ys
    exact decidable_of_iff (xs = ys) ⟨congrArg Val.obj, fun h => by injection h⟩
  case set.set xs ys =>
    haveI : Decidable (xs = ys) := Val.decEqList xs ys
    exact decidable_of_iff (xs = ys) ⟨congrArg Val.set, fun h => by injection h⟩

def Val.decEqList (xs ys : List Val) : Decidable (xs = ys) :=
  match xs, ys with
  | [], [] => isTrue rfl
  | [], _ :: _ => isFalse (fun h => List.noConfusion h)
  | _ :: _, [] => isFalse (fun h => List.noConfusion h)
  | x :: xs, y :: ys =>
    match Val.decEq x y, Val.decEqList xs ys with
    | isTrue h1, isTrue h2 => isTrue (by rw [h1, h2])
    | isFalse h1, _ => isFalse (fun h => h1 (by injection h))
    | _, isFalse h2 => isFalse (fun h => h2 (by injection h))

def Val.decEqKVList (xs ys : List (Val × Val)) : Decidable (xs = ys) :=
  match xs, ys with
  | [], [] => isTrue rfl
  | [], _ :: _ => isFalse (fun h => List.noConfusion h)
  | _ :: _, [] => isFalse (fun h => List.noConfusion h)
  | (k1, v1) :: xs, (k2, v2) :: ys =>
    match Val.decEq k1 k2, Val.decEq v1 v2, Val.decEqKVList xs ys with
    | isTrue h1, isTrue h2, isTrue h3 => isTrue (by rw [h1, h2, h3])
    | isFalse h1, _, _ =>
      isFalse (fun h => by injection h with hh _; exact h1 (congrArg Prod.fst hh))
    | _, isFalse h2, _ =>
      isFalse (fun h => by injection h with hh _; exact h2 (congrArg Prod.snd hh))
    | _, _, isFalse h3 => isFalse (fun h => h3 (by injection h))

end

instance : DecidableEq Val := Val.decEq

/-- Evaluator error kinds (`topdown/errors.go` carries messages and locations;
only the kind is semantically relevant to the claims). -/
inductive EErr : Type where
  | completeDocConflict : EErr
  | functionConflict : EErr
  | objectKeyConflict : EErr
  | mergeConflict : EErr
  | cancel : EErr
  | halted : Nat → EErr
deriving DecidableEq, Repr

/-! ## C1: negation (`eval.evalNot`, non-partial)

`evalNot` builds a child driver over the complement of the negated
expression, sharing the current bindings frame (`closure`).  The child's
continuation only sets `child.defined = true`.  The child enumeration is
embedded by the list of solutions it finds. -/

/-- The `defined` flag after the child driver enumerated `sols`, with the
continuation `func(*eval) error { child.defined = true; return nil }`:
a fold that sets the flag once per solution. -/
def childDefined (sols : List α) : Bool :=
  sols.foldl (fun _ _ => true) false

/-- `eval.evalNot` (non-partial branch): run the complement in a closure
(`complementRun` is the child evaluation: an error, or the list of solutions
of the complement in the shared frame); if the child proved no solution,
call `iter`; otherwise fail (return `ok` without invoking `iter`).
The `Option σ` result observes the continuation: `some` carries `iter`'s
value, `none` means the negation failed without calling `iter`. -/
def evalNot (complementRun : Except EErr (List α)) (iter : Unit → Except EErr σ) :
    Except EErr (Option σ) :=
  match complementRun with
  | .error err => .error err
  | .ok sols =>
    if !childDefined sols then (iter ()).map some
    else .ok none

/-! ## C3: `every` quantification (`evalEvery.eval`, `isIterableValue`)

The generator `D[k] = v` enumerates the key/value pairs of the plugged
domain (array indices, object keys, set members); each generator solution
runs the body in a nested closure with `findOne = true`, whose `done` flag
is set by the first body solution. -/

/-- `isIterableValue` returns true if the AST value is an iterable type. -/
def isIterableValue : Val → Bool
  | .arr _ => true
  | .obj _ => true
  | .set _ => true
  | _ => false

/-- The key/value pairs enumerated by the generator `D[k] = v` over an
iterable domain: array → (index, element), object → its pairs,
set → (member, member). -/
def domainPairs : Val → List (Val × Val)
  | .arr xs => xs.enum.map (fun p => (Val.num p.1, p.2))
  | .obj fs => fs
  | .set xs => xs.map (fun x => (x, x))
  | _ => []

/-- One generator solution inside `evalEvery.eval`: if `all` was already
cleared, skip; otherwise run the body in a nested closure with
`findOne = true` — its `done` flag is set by the first body solution —
and clear `all` when no body solution was found. -/
def everyStep (bodySols : Val → Val → List σ) (all : Bool) (kv : Val × Val) : Bool :=
  if !all then all
  else
    let done := childDefined (bodySols kv.1 kv.2)
    if !done then false else all

/-- The `all` flag after the generator enumeration (starts `true`). -/
def everyAll (bodySols : Val → Val → List σ) (pairs : List (Val × Val)) : Bool :=
  pairs.foldl (everyStep bodySols) true

/-- `evalEvery.eval` (no unknowns): plug the domain; if it is not iterable,
fail silently (no error, continuation not called).  Otherwise run the
generator over the domain's pairs, running the body in a nested closure for
each; succeed (call `iter`) iff every generator solution had at least one
body solution. -/
def evalEvery (pluggedDomain : Val) (bodySols : Val → Val → List σ)
    (iter : Unit → Except EErr τ) : Except EErr (Option τ) :=
  if !isIterableValue pluggedDomain then .ok none
  else
    let all := everyAll bodySols (domainPairs pluggedDomain)
    if all then (iter ()).map some
    else .ok none

/-! ## C2: complete-document rules (`evalVirtualComplete.evalValue` /
`evalVirtualComplete.evalValueRule`), non-partial, cache miss

A rule's body evaluation is embedded by the list of plugged head values it
produces, one per body solution, in order (`RuleEval.sols`); the rules of
its `else` chain likewise (`RuleEval.els`).  The virtual-cache `Put` of the
first value and the `evalTerm`/`iter` call on the first success are effects
the claim does not mention and are not tracked; early-exit signalling is
instrumentation of the search order and is likewise dropped (the embedding
is the plain enumerating mode). -/

/-- The evaluation outcomes of one rule: the plugged head value of each
body solution, and the same for each `else` rule in chain order. -/
structure RuleEval where
  sols : List Val
  els : List (List Val)
deriving DecidableEq, Repr

/-- The body of `evalVirtualComplete.evalValueRule`'s continuation, folded
over the rule's body solutions: plug the head value (`v`), compare it with
`prev` (a differing value is a `completeDocConflict`), record the first
value.  `result` is the rule's `result` variable (the value returned as
`next`); `prev` is shared with the caller's loop. -/
def evalValueRuleAux (result prev : Option Val) : List Val → Except EErr (Option Val)
  | [] => .ok result
  | v :: rest =>
    match prev with
    | some p =>
      if v ≠ p then .error .completeDocConflict
      else evalValueRuleAux (some v) (some p) rest
    | none => evalValueRuleAux (some v) (some v) rest

/-- `evalVirtualComplete.evalValueRule`: evaluate one rule's body, threading
`prev`; returns the rule's last plugged head value (`nil` when the body had
no solution). -/
def evalValueRule (prev : Option Val) (sols : List Val) : Except EErr (Option Val) :=
  evalValueRuleAux none prev sols

/-- The `else`-chain loop of `evalVirtualComplete.evalValue`: try each
`else` rule in order until one is defined. -/
def evalValueElse (prev : Option Val) : List (List Val) → Except EErr (Option Val)
  | [] => .ok none
  | s :: rest =>
    match evalValueRule prev s with
    | .error e => .error e
    | .ok (some v) => .ok (some v)
    | .ok none => evalValueElse prev rest

/-- The rule loop of `evalVirtualComplete.evalValue`: for each indexed rule
evaluate it, chain to its `else` rules when undefined, and update `prev`
from the rule's result. -/
def evalValueRules (prev : Option Val) : List RuleEval → Except EErr (Option Val)
  | [] => .ok prev
  | r :: rest =>
    match evalValueRule prev r.sols with
    | .error e => .error e
    | .ok next =>
      let afterElse : Except EErr (Option Val) :=
        match next with
        | none => evalValueElse prev r.els
        | some v => .ok (some v)
      match afterElse with
      | .error e => .error e
      | .ok next2 =>
        evalValueRules (match next2 with | some v => some v | none => prev) rest

/-- `evalVirtualComplete.evalValue` on a cache miss: run the rules; when
still undefined, evaluate the default rule (a default rule has a constant
head value, embedded as `dflt`).  `none` = the document is undefined. -/
def evalVirtualCompleteValue (rules : List RuleEval) (dflt : Option Val) :
    Except EErr (Option Val) :=
  match evalValueRules none rules with
  | .error e => .error e
  | .ok (some v) => .ok (some v)
  | .ok none => .ok dflt

/-- The values actually produced by an `else` chain: the solutions of the
first `else` rule whose body is defined (earlier, undefined rules produce
nothing). -/
def elseProduced : List (List Val) → List Val
  | [] => []
  | s :: rest => if s.isEmpty then elseProduced rest else s

/-- The values produced by one rule: its own body solutions if any,
otherwise those of its `else` chain. -/
def ruleProduced (r : RuleEval) : List Val :=
  if r.sols.isEmpty then elseProduced r.els else r.sols

/-- All values produced by a rule set, in evaluation order. -/
def rulesProduced (rules : List RuleEval) : List Val :=
  (rules.map ruleProduced).flatten

/-! ## C5: function rules (`evalFunc.evalValue` / `evalFunc.evalOneRule`),
non-partial, cache miss

Same embedding as C2 plus: the continuation (`iter`) calls are counted
(`iters`), and the predicate form (output not captured, plugged value the
literal `false`) records the value without calling the continuation.
`captured` is `len(e.terms)-1 == argCount+1` (the call site captures the
output). -/

/-- The continuation body of `evalFunc.evalOneRule`, folded over the rule's
body solutions (non-partial): plug the head value; an uncaptured `false`
result only records the value; otherwise a differing previous value is a
`functionConflict`, an equal one is deduplicated (no `iter`), and a first
value is recorded and passed to `iter`. -/
def evalOneRuleSols (captured : Bool) :
    Option Val → Option Val → Nat → List Val → Except EErr (Option Val × Option Val × Nat)
  | result, prev, iters, [] => .ok (result, prev, iters)
  | _, prev, iters, v :: rest =>
    if !captured && v = Val.bool false then
      match prev with
      | some p =>
        if v ≠ p then .error .functionConflict
        else evalOneRuleSols captured (some v) (some v) iters rest
      | none => evalOneRuleSols captured (some v) (some v) iters rest
    else
      match prev with
      | some p =>
        if v ≠ p then .error .functionConflict
        else evalOneRuleSols captured (some v) (some p) iters rest
      | none => evalOneRuleSols captured (some v) (some v) (iters + 1) rest

/-- The `else`-chain loop of `evalFunc.evalValue`. -/
def evalFuncElse (captured : Bool) (prev : Option Val) (iters : Nat) :
    List (List Val) → Except EErr (Option Val × Nat)
  | [] => .ok (none, iters)
  | s :: rest =>
    match evalOneRuleSols captured none prev iters s with
    | .error e => .error e
    | .ok (next, _, iters2) =>
      match next with
      | some v => .ok (some v, iters2)
      | none => evalFuncElse captured prev iters2 rest

/-- The rule loop of `evalFunc.evalValue`. -/
def evalFuncRules (captured : Bool) (prev : Option Val) (iters : Nat) :
    List RuleEval → Except EErr (Option Val × Nat)
  | [] => .ok (prev, iters)
  | r :: rest =>
    match evalOneRuleSols captured none prev iters r.sols with
    | .error e => .error e
    | .ok (next, _, iters2) =>
      let afterElse : Except EErr (Option Val × Nat) :=
        match next with
        | none => evalFuncElse captured prev iters2 r.els
        | some v => .ok (some v, iters2)
      match afterElse with
      | .error e => .error e
      | .ok (next2, iters3) =>
        evalFuncRules captured
          (match next2 with | some v => some v | none => prev) iters3 rest

/-- `evalFunc.evalValue` after a cache miss (non-partial): run the rules and
`else` chains; when no rule produced a result and a default rule exists,
evaluate it (default function rules have a constant head value `d`).
Returns (function value, continuation calls, default-rule-evaluated). -/
def evalFuncValue (captured : Bool) (rules : List RuleEval) (dflt : Option Val) :
    Except EErr (Option Val × Nat × Bool) :=
  match evalFuncRules captured none 0 rules with
  | .error e => .error e
  | .ok (prev, iters) =>
    match prev, dflt with
    | none, some d =>
      match evalOneRuleSols captured none none iters [d] with
      | .error e => .error e
      | .ok (next, _, iters2) => .ok (next, iters2, true)
    | _, _ => .ok (prev, iters, false)

/-! ## C6: object comprehension materialisation
(`eval.biunifyComprehensionObject` and `eval.buildComprehensionCacheObject`)

A `child.Run` over the comprehension body is embedded by the list of its
solutions; each solution contributes the plugged head key and value (and,
on the cache path, the plugged values of the comprehension's index keys). -/

/-- `ast.Object.Get` on the ordered field list. -/
def objGet (fields : List (Val × Val)) (k : Val) : Option Val :=
  match fields with
  | [] => none
  | (k1, v1) :: rest => if k1 = k then some v1 else objGet rest k

/-- `ast.Object.Insert`: overwrite the value at an existing key, else
append the pair. -/
def objInsert (fields : List (Val × Val)) (k v : Val) : List (Val × Val) :=
  match fields with
  | [] => [(k, v)]
  | (k1, v1) :: rest =>
    if k1 = k then (k1, v) :: rest else (k1, v1) :: objInsert rest k v

/-- The `child.Run` loop of `eval.biunifyComprehensionObject`: for each body
solution plug the key and the value; a key already present with a non-equal
value raises `object_key_conflict`; then insert. -/
def biunifyComprehensionObjectLoop :
    List (Val × Val) → List (Val × Val) → Except EErr (List (Val × Val))
  | [], result => .ok result
  | (key, value) :: rest, result =>
    match objGet result key with
    | some exist =>
      if exist ≠ value then .error .objectKeyConflict
      else biunifyComprehensionObjectLoop rest (objInsert result key value)
    | none => biunifyComprehensionObjectLoop rest (objInsert result key value)

/-- Materialisation of an object comprehension during biunification
(`eval.biunifyComprehensionObject`): run the body solutions into a fresh
object (the result is then biunified with the other term, not modelled). -/
def biunifyComprehensionObjectRun (sols : List (Val × Val)) :
    Except EErr (List (Val × Val)) :=
  biunifyComprehensionObjectLoop sols []

/-- A comprehension-cache element for an object comprehension: plugged
index-key values → the fields of the cached object term. -/
abbrev ComprehensionCacheElem := List (List Val × List (Val × Val))

/-- `comprehensionCacheElem.Get` keyed by the plugged index-key values. -/
def ccGet (node : ComprehensionCacheElem) (ks : List Val) :
    Option (List (Val × Val)) :=
  match node with
  | [] => none
  | (ks1, fields) :: rest => if ks1 = ks then some fields else ccGet rest ks

/-- `comprehensionCacheElem.Put`. -/
def ccPut (node : ComprehensionCacheElem) (ks : List Val)
    (fields : List (Val × Val)) : ComprehensionCacheElem :=
  match node with
  | [] => [(ks, fields)]
  | (ks1, f1) :: rest =>
    if ks1 = ks then (ks1, fields) :: rest else (ks1, f1) :: ccPut rest ks fields

/-- The `child.Run` loop of `eval.buildComprehensionCacheObject`: each body
solution carries (plugged index-key values, plugged head key, plugged head
value).  On a hit for the index keys the source inserts the pair into the
cached object without comparing any existing value at that key; on a miss
it stores a fresh one-pair object. -/
def buildComprehensionCacheObjectLoop :
    List (List Val × Val × Val) → ComprehensionCacheElem →
    Except EErr ComprehensionCacheElem
  | [], node => .ok node
  | (values, headKey, headValue) :: rest, node =>
    match ccGet node values with
    | some fields =>
      buildComprehensionCacheObjectLoop rest
        (ccPut node values (objInsert fields headKey headValue))
    | none =>
      buildComprehensionCacheObjectLoop rest
        (ccPut node values [(headKey, headValue)])

/-- `eval.buildComprehensionCacheObject`: build the cache table from the
body solutions, starting from a fresh element. -/
def buildComprehensionCacheObjectRun (sols : List (List Val × Val × Val)) :
    Except EErr ComprehensionCacheElem :=
  buildComprehensionCacheObjectLoop sols []

/-! ## C7: built-in dispatch error handling (`evalBuiltin.eval`)

The built-in implementation is invoked with an output handler; the handler
wraps errors coming from the continuation in `Halt` so they are not
recorded as built-in errors.  The implementation's behaviour is embedded as
the outputs it yields, in order, followed by an optional terminal error. -/

/-- Errors returned by a built-in implementation: `halt` wraps an evaluator
error to be propagated verbatim; any other error is identified by its
message. -/
inductive BuiltinCallErr : Type where
  | halt : EErr → BuiltinCallErr
  | builtinErr : String → BuiltinCallErr
deriving DecidableEq, Repr

/-- The output handler closure passed to the built-in implementation in
`evalBuiltin.eval`: no declared result — call `iter` unconditionally;
result not captured — call `iter` unless the output is literal `false`;
captured — unify the output with the output term.  Errors from these calls
are wrapped into `Halt` (they come from `iter`, not from the built-in). -/
def builtinOutputHandler (hasResultDecl captured : Bool)
    (unifyOut : Val → Except EErr Unit) (iter : Unit → Except EErr Unit)
    (output : Val) : Except BuiltinCallErr Unit :=
  let r : Except EErr Unit :=
    if !hasResultDecl then iter ()
    else if !captured then
      if output = Val.bool false then .ok () else iter ()
    else unifyOut output
  match r with
  | .ok u => .ok u
  | .error e => .error (.halt e)

/-- Run the built-in implementation: yield each output to the handler in
order (stopping at a handler error), then surface the implementation's own
terminal error, if any. -/
def runBuiltinOutputs (handler : Val → Except BuiltinCallErr Unit) :
    List Val → Option BuiltinCallErr → Except BuiltinCallErr Unit
  | [], fin =>
    match fin with
    | some e => .error e
    | none => .ok ()
  | o :: rest, fin =>
    match handler o with
    | .error e => .error e
    | .ok _ => runBuiltinOutputs handler rest fin

/-- The error handling at the end of `evalBuiltin.eval`: a `Halt` is
unwrapped and propagated; any other error is appended to the per-query
built-in error list and the call completes without error (undefined —
the continuation was not called for it). -/
def evalBuiltinHandleErr (r : Except BuiltinCallErr Unit)
    (builtinErrors : List String) : Except EErr Unit × List String :=
  match r with
  | .ok _ => (.ok (), builtinErrors)
  | .error (.halt e) => (.error e, builtinErrors)
  | .error (.builtinErr m) => (.ok (), builtinErrors ++ [m])

/-- `evalBuiltin.eval` (normal unification flow): invoke the implementation
with the output handler, then handle its error. -/
def evalBuiltinEval (hasResultDecl captured : Bool)
    (unifyOut : Val → Except EErr Unit) (iter : Unit → Except EErr Unit)
    (outputs : List Val) (fin : Option BuiltinCallErr)
    (builtinErrors : List String) : Except EErr Unit × List String :=
  evalBuiltinHandleErr
    (runBuiltinOutputs (builtinOutputHandler hasResultDecl captured unifyOut iter)
      outputs fin)
    builtinErrors

/-! ## C8: `merge` / `mergeObjects` and the resolver's merge-conflict branch
(`evalResolver.Resolve`, `data` root, base-cache hit)

Objects are their ordered field lists; `none` stands for the Go `ok = false`
result.  `mergeObjectsA` is the `objA.Until` loop (its `none` is the loop
stopping early, which the source turns into `nil, false`). -/

mutual

/-- `mergeObjects`: the keys of `objA` (with overlapping object values
merged recursively and non-object overlaps keeping `objA`'s value),
followed by the keys of `objB` not present in `objA`. -/
def mergeObjects (fa fb : List (Val × Val)) : Option (List (Val × Val)) :=
  match mergeObjectsA fa fb with
  | none => none
  | some part =>
    some (part ++ fb.filter (fun kv => (objGet fa kv.1).isNone))
termination_by (sizeOf fa, 1)

/-- The `objA.Until` loop of `mergeObjects`: a key absent from `objB`, or
present with a non-object value on either side, keeps `objA`'s pair; two
object values merge recursively, a failing recursive merge stopping the
loop (`none`). -/
def mergeObjectsA (fa fb : List (Val × Val)) : Option (List (Val × Val)) :=
  match fa with
  | [] => some []
  | (k, v) :: rest =>
    match objGet fb k with
    | none => (mergeObjectsA rest fb).map (fun r => (k, v) :: r)
    | some v2 =>
      match v, v2 with
      | .obj o1, .obj o2 =>
        match mergeObjects o1 o2 with
        | none => none
        | some o3 => (mergeObjectsA rest fb).map (fun r => (k, Val.obj o3) :: r)
      | _, _ => (mergeObjectsA rest fb).map (fun r => (k, v) :: r)
termination_by (sizeOf fa, 0)

end

/-- `merge`: two objects merge recursively; in every other combination
there is nothing to merge and `a` wins. -/
def mergeVals (a b : Val) : Option Val :=
  match a, b with
  | .obj fa, .obj fb => (mergeObjects fa fb).map Val.obj
  | _, _ => some a

/-- Whether a value is an object (the `v.Value.(ast.Object)` type test). -/
def isObjVal : Val → Bool
  | .obj _ => true
  | _ => false

/-- The base-cache-hit branch of `evalResolver.Resolve` for a `data`
reference with an overlay (`repValue`): merge overlay over the cached base
value; a failing merge raises `mergeConflictErr`. -/
def resolveBaseCacheHit (repValue : Option Val) (realValue : Val) :
    Except EErr Val :=
  match repValue with
  | none => .ok realValue
  | some rep =>
    match mergeVals rep realValue with
    | some merged => .ok merged
    | none => .error .mergeConflict

/-! ## C10: the function-call cache (`evalFunc.evalCache` and the head of
`evalFunc.evalValue`)

The virtual cache is keyed by the plugged call terms (function name and
arguments; the output term is dropped from the key when the output is
captured).  The continuation result is observed as in C1: `some` = `iter`
was reached. -/

/-- The virtual cache restricted to function-call keys. -/
abbrev FuncCache := List (List Val × Val)

/-- `VirtualCache.Get` on a function-call key. -/
def vcGet (vc : FuncCache) (key : List Val) : Option Val :=
  match vc with
  | [] => none
  | (k1, v1) :: rest => if k1 = key then some v1 else vcGet rest key

/-- The observable outcome of `evalFunc.evalValue` around the cache:
counter increments, whether `evalCache` reported a hit, whether the rules
were evaluated, and the continuation observation. -/
structure FuncCacheOutcome (σ : Type) where
  hits : Nat
  misses : Nat
  hit : Bool
  rulesEvaluated : Bool
  res : Except EErr (Option σ)

/-- `evalFunc.evalCache`: look up the plugged key; on a hit count one
virtual-cache hit and — for an uncaptured output — fail (undefined) when
the cached value is literal `false`, succeed through `iter` otherwise; for
a captured output unify it with the cached value.  On a miss count one
virtual-cache miss.  The head of `evalFunc.evalValue` (non-partial) returns
immediately on a hit, without evaluating any rule. -/
def evalFuncValueCached (vc : FuncCache) (key : List Val) (captured : Bool)
    (iter : Unit → Except EErr σ) (unifyOut : Val → Except EErr σ) :
    FuncCacheOutcome σ :=
  match vcGet vc key with
  | some cached =>
    if !captured then
      if cached = Val.bool false then
        { hits := 1, misses := 0, hit := true, rulesEvaluated := false,
          res := .ok none }
      else
        { hits := 1, misses := 0, hit := true, rulesEvaluated := false,
          res := (iter ()).map some }
    else
      { hits := 1, misses := 0, hit := true, rulesEvaluated := false,
        res := (unifyOut cached).map some }
  | none =>
    { hits := 0, misses := 1, hit := false, rulesEvaluated := true,
      res := .ok none }

/-! ## C9: biunification of dereferenced terms (`eval.biunify` /
`eval.biunifyValues`), non-partial

First-order terms only: references and comprehensions are routed to
`biunifyRef`/`biunifyComprehension` before this fragment applies, and in
non-partial mode the save-set checks are false and `saveUnify` is dead.
Bindings frames live in a per-query store and are identified by index
(standing for pointer identity, `b1 == b2`).  `bind` prepends the entry and
its `undo` removes it; ground compound values (`TermV.val`) compare as
wholes, observably equal to the source's element-wise recursion on ground
arrays/objects and to its plug-and-compare on sets. -/

/-- A term as seen by the unifier: a variable or a ground value. -/
inductive TermV : Type where
  | var : String → TermV
  | val : Val → TermV
deriving DecidableEq, Repr

/-- A bindings frame: variable name → (term, frame index of the binding). -/
abbrev Frame := List (String × (TermV × Nat))

/-- The per-query frames, indexed by frame identity. -/
abbrev Store := List Frame

/-- Modelled from the spec: `bindings.apply` — "one-step dereference of a
variable" (§3 Bindings; the bindings implementation file is not among the
sources): a bound variable becomes its bound term together with the frame
the binding lives in; anything else is returned with its own frame. -/
def bindingsApply (st : Store) (fi : Nat) (t : TermV) : TermV × Nat :=
  match t with
  | .var x =>
    match (st.getD fi []).lookup x with
    | some (t2, fj) => (t2, fj)
    | none => (t, fi)
  | .val _ => (t, fi)

/-- Modelled from the spec: `bindings.bind` records the binding in the
frame and produces exactly one undo entry (§3 Bindings). -/
def bindingsBind (st : Store) (fi : Nat) (x : String) (t : TermV) (tf : Nat) :
    Store :=
  st.set fi ((x, (t, tf)) :: st.getD fi [])

/-- Modelled from the spec: undoing the most recent `bind` of frame `fi`
(§3 Bindings: one `Undo` entry per `bind`, invoked on backtrack). -/
def bindingsUndo (st : Store) (fi : Nat) : Store :=
  st.set fi (st.getD fi []).tail

/-- `eval.biunifyValues` on dereferenced first-order terms (non-partial):
var–var in the same frame with the same name calls `iter` directly;
otherwise a variable is bound, `iter` runs, and the undo restores the
frame; ground values compare as wholes.  The result carries the
continuation observation and the store after the undo. -/
def biunifyValues (st : Store) (a b : TermV) (f1 f2 : Nat)
    (iter : Store → Except EErr σ) : Except EErr (Option σ × Store) :=
  match a, b with
  | .var x, .var y =>
    if f1 = f2 && x = y then (iter st).map (fun r => (some r, st))
    else
      let st2 := bindingsBind st f1 x (.var y) f2
      (iter st2).map (fun r => (some r, bindingsUndo st2 f1))
  | .var x, .val _ =>
    let st2 := bindingsBind st f1 x b f2
    (iter st2).map (fun r => (some r, bindingsUndo st2 f1))
  | .val _, .var y =>
    let st2 := bindingsBind st f2 y a f1
    (iter st2).map (fun r => (some r, bindingsUndo st2 f2))
  | .val va, .val vb =>
    if va = vb then (iter st).map (fun r => (some r, st)) else .ok (none, st)

/-- `eval.biunify`: apply each term once through its frame, then dispatch
(all first-order kind pairs route to `biunifyValues`). -/
def biunify (st : Store) (a b : TermV) (f1 f2 : Nat)
    (iter : Store → Except EErr σ) : Except EErr (Option σ × Store) :=
  let a2 := bindingsApply st f1 a
  let b2 := bindingsApply st f2 b
  biunifyValues st a2.1 b2.1 a2.2 b2.2 iter

/-! ## C4: `with` substitution (`eval.evalWith`, `eval.evalWithPush`,
`eval.evalWithPop`), non-partial

The evaluator state touched by `with`: input and data terms, and the
function-mock, target, inlining-disable, virtual-cache and
comprehension-cache stacks.  Stack/scope `Push`/`Pop` and
`mergeTermWithValues` are modelled from the spec (§4.6) — their
implementation files are not among the sources.  References are paths of
values; a scope's contents are an association list. -/

/-- A reference path (the terms after the root). -/
abbrev RefPath := List Val

/-- A cache scope's contents. -/
abbrev CacheScope := List (RefPath × Val)

/-- The per-query evaluator state manipulated by `with` evaluation. -/
@[ext]
structure EvalState where
  input : Option Val
  data : Option Val
  functionMocks : List (List (RefPath × Val))
  targetStack : List (List RefPath)
  inliningDisable : List (List RefPath)
  virtualCache : List CacheScope
  comprehensionCache : List CacheScope
deriving DecidableEq, Repr

/-- `eval.evalWithPush`: replace input and data when a replacement is
present (remembering the old terms), push a fresh comprehension-cache scope
and a fresh virtual-cache scope, push the targets, push the
inlining-disable list, and push the function-mock pairs. -/
def evalWithPush (inp data : Option Val) (functionMocks : List (RefPath × Val))
    (targets disable : List RefPath) (s : EvalState) :
    EvalState × Option Val × Option Val :=
  let p1 := match inp with
    | some _ => (s.input, { s with input := inp })
    | none => (none, s)
  let oldInput := p1.1
  let p2 := match data with
    | some _ => (p1.2.data, { p1.2 with data := data })
    | none => (none, p1.2)
  let oldData := p2.1
  let s2 := p2.2
  let s3 := { s2 with comprehensionCache := [] :: s2.comprehensionCache }
  let s4 := { s3 with virtualCache := [] :: s3.virtualCache }
  let s5 := { s4 with targetStack := targets :: s4.targetStack }
  let s6 := { s5 with inliningDisable := disable :: s5.inliningDisable }
  let s7 := { s6 with functionMocks := functionMocks :: s6.functionMocks }
  (s7, oldInput, oldData)

/-- `eval.evalWithPop`: pop the inlining-disable, target, virtual-cache,
comprehension-cache and function-mock stacks in reverse order, then restore
data and input from the remembered terms. -/
def evalWithPop (oldInput oldData : Option Val) (s : EvalState) : EvalState :=
  let s1 := { s with inliningDisable := s.inliningDisable.tail }
  let s2 := { s1 with targetStack := s1.targetStack.tail }
  let s3 := { s2 with virtualCache := s2.virtualCache.tail }
  let s4 := { s3 with comprehensionCache := s3.comprehensionCache.tail }
  let s5 := { s4 with functionMocks := s4.functionMocks.tail }
  { s5 with data := oldData, input := oldInput }

/-- A nested one-path object for a replacement at a sub-path. -/
def makeTree : RefPath → Val → Val
  | [], v => v
  | k :: rest, v => .obj [(k, makeTree rest v)]

/-- One replacement pair folded into the document being built: a root
target replaces the whole document; a sub-path replacement is merged over
the current document (the replacement side wins, through `merge`). -/
def mergeTermPair (acc : Option Val) (pv : RefPath × Val) : Option Val :=
  match pv.1 with
  | [] => some pv.2
  | _ :: _ =>
    match acc with
    | none => some (makeTree pv.1 pv.2)
    | some cur =>
      match mergeVals (makeTree pv.1 pv.2) cur with
      | some merged => some merged
      | none => some (makeTree pv.1 pv.2)

/-- Modelled from the spec: `mergeTermWithValues` merges the plugged
replacement pairs into the existing document (§4.6 step 2: objects merge
recursively through `mergeObjects`, non-object replacement values
overwrite); with no replacement pairs the existing document is returned
unchanged.  The implementation file is not among the sources. -/
def mergeTermWithValues (exist : Option Val) (pairs : List (RefPath × Val)) :
    Option Val :=
  match pairs with
  | [] => exist
  | _ => pairs.foldl mergeTermPair exist

/-- The observable behaviour of `evalStep` on the expression under the
`with` clauses: the state mutation accumulated at each solution point (the
body continuation is invoked after each), and the mutation between the last
solution and `evalStep` returning. -/
structure StepBehavior where
  muts : List (EvalState → EvalState)
  fin : EvalState → EvalState

/-- The solution loop inside `eval.evalWith`: at each solution of the
expression, pop the scopes (restoring input/data), run the continuation for
the remainder of the body (`next`), push the scopes again (recapturing the
old terms), and continue; an error from the continuation stops the loop.
The log records each state the body continuation was invoked on. -/
def evalWithLoop (inp data : Option Val) (mocks : List (RefPath × Val))
    (targets disable : List RefPath)
    (next : EvalState → EvalState × Option EErr) :
    List (EvalState → EvalState) → EvalState × Option Val × Option Val →
    List EvalState →
    (EvalState × Option Val × Option Val) × Option EErr × List EvalState
  | [], acc, log => (acc, none, log)
  | m :: rest, acc, log =>
    let s1 := m acc.1
    let s2 := evalWithPop acc.2.1 acc.2.2 s1
    let r := next s2
    let acc2 := evalWithPush inp data mocks targets disable r.1
    match r.2 with
    | some e => (acc2, some e, log ++ [s2])
    | none => evalWithLoop inp data mocks targets disable next rest acc2 (log ++ [s2])

/-- `eval.evalWith` (non-partial; the with-clauses already partitioned into
input pairs, data pairs, function mocks and targets): merge the replacement
documents, push, run the expression (`sb`), and pop on exit.  Returns the
final state, the error if any, and the log of states the body continuation
observed. -/
def evalWith (pairsInput pairsData : List (RefPath × Val))
    (mocks : List (RefPath × Val)) (targets disable : List RefPath)
    (sb : StepBehavior) (next : EvalState → EvalState × Option EErr)
    (s : EvalState) : EvalState × Option EErr × List EvalState :=
  let inp := mergeTermWithValues s.input pairsInput
  let data := mergeTermWithValues s.data pairsData
  let acc0 := evalWithPush inp data mocks targets disable s
  let r := evalWithLoop inp data mocks targets disable next sb.muts acc0 []
  let s1 := sb.fin r.1.1
  (evalWithPop r.1.2.1 r.1.2.2 s1, r.2.1, r.2.2)

/-- The discipline the expression's own evaluation obeys between push and
pop: it mutates only the contents of the freshly pushed scopes — input,
data, the mock/target/disable stacks and everything below the top cache
scopes are untouched, and the cache stack depths are preserved. -/
def FramePreserved (s1 s2 : EvalState) : Prop :=
  s2.input = s1.input ∧ s2.data = s1.data ∧
  s2.functionMocks = s1.functionMocks ∧
  s2.targetStack = s1.targetStack ∧
  s2.inliningDisable = s1.inliningDisable ∧
  s2.virtualCache.tail = s1.virtualCache.tail ∧
  s2.virtualCache.length = s1.virtualCache.length ∧
  s2.comprehensionCache.tail = s1.comprehensionCache.tail ∧
  s2.comprehensionCache.length = s1.comprehensionCache.length

/-! # Theorems -/

theorem foldl_const_true (l : List α) :
    l.foldl (fun (_ : Bool) (_ : α) => true) true = true := by
  induction l with
  | nil => rfl
  | cons x xs ih => exact ih

theorem childDefined_nil : childDefined ([] : List α) = false := rfl

theorem childDefined_cons (s : α) (rest : List α) :
    childDefined (s :: rest) = true := by
  show (s :: rest).foldl (fun _ _ => true) false = true
  rw [List.foldl_cons]
  exact foldl_const_true rest

theorem map_some_ne_ok_none (r : Except ε α) :
    r.map some ≠ Except.ok none := by
  cases r <;> simp [Except.map]

/-- C1: for `not e` outside partial-evaluation mode, the continuation is
called (with the complement's child evaluation erroring nowhere) iff the
complement has no solution in the shared frame; with at least one solution
the negation fails without calling the continuation. -/
theorem claim_C1_evalNot (sols : List α) (iter : Unit → Except EErr σ) :
    (evalNot (.ok sols) iter = (iter ()).map some ↔ sols = []) ∧
    (sols ≠ [] → evalNot (.ok sols) iter = .ok none) := by
  cases sols with
  | nil =>
    refine ⟨⟨fun _ => rfl, fun _ => ?_⟩, fun h => absurd rfl h⟩
    simp [evalNot, childDefined_nil]
  | cons s rest =>
    have hcd := childDefined_cons s rest
    have heval : evalNot (.ok (s :: rest)) iter = .ok none := by
      simp [evalNot, hcd]
    refine ⟨⟨fun h => ?_, fun h => by cases h⟩, fun _ => heval⟩
    rw [heval] at h
    exact absurd h.symm (map_some_ne_ok_none _)

theorem claim_C1_evalNot_witness :
    evalNot (Except.ok [0]) (fun _ => (Except.ok 7 : Except EErr Nat)) = .ok none ∧
    evalNot (Except.ok ([] : List Nat)) (fun _ => (Except.ok 7 : Except EErr Nat)) =
      .ok (some 7) :=
  ⟨(claim_C1_evalNot [0] _).2 (by simp),
   ((claim_C1_evalNot [] _).1).mpr rfl⟩

theorem everyStep_foldl_false (bodySols : Val → Val → List σ)
    (l : List (Val × Val)) : l.foldl (everyStep bodySols) false = false := by
  induction l with
  | nil => rfl
  | cons kv rest ih =>
    rw [List.foldl_cons]
    have h : everyStep bodySols false kv = false := by simp [everyStep]
    rw [h]
    exact ih

theorem everyAll_true_iff (bodySols : Val → Val → List σ)
    (pairs : List (Val × Val)) :
    everyAll bodySols pairs = true ↔ ∀ kv ∈ pairs, bodySols kv.1 kv.2 ≠ [] := by
  induction pairs with
  | nil => simp [everyAll]
  | cons kv rest ih =>
    show (kv :: rest).foldl (everyStep bodySols) true = true ↔ _
    rw [List.foldl_cons]
    cases hbs : bodySols kv.1 kv.2 with
    | nil =>
      have hstep : everyStep bodySols true kv = false := by
        simp [everyStep, hbs, childDefined_nil]
      rw [hstep, everyStep_foldl_false]
      constructor
      · intro hcontr
        exact absurd hcontr (by simp)
      · intro h
        exact absurd hbs (h kv (List.mem_cons_self kv rest))
    | cons b bs =>
      have hstep : everyStep bodySols true kv = true := by
        simp [everyStep, hbs, childDefined_cons]
      rw [hstep]
      have ihh : rest.foldl (everyStep bodySols) true = true ↔
          ∀ kv ∈ rest, bodySols kv.1 kv.2 ≠ [] := ih
      rw [ihh]
      constructor
      · intro h kv2 hm
        rcases List.mem_cons.mp hm with h1 | h2
        · subst h1; simp [hbs]
        · exact h kv2 h2
      · intro h kv2 hm
        exact h kv2 (List.mem_cons_of_mem kv hm)

/-- C3: `every k, v in D { body }` with no unknowns: a non-iterable plugged
domain fails silently (no error, continuation not called); an iterable
domain succeeds iff the body has at least one solution for every key/value
pair enumerated from it, and otherwise fails silently. -/
theorem claim_C3_evalEvery (D : Val) (bodySols : Val → Val → List σ)
    (iter : Unit → Except EErr τ) :
    (isIterableValue D = false → evalEvery D bodySols iter = .ok none) ∧
    (isIterableValue D = true →
      ((evalEvery D bodySols iter = (iter ()).map some ↔
          ∀ kv ∈ domainPairs D, bodySols kv.1 kv.2 ≠ []) ∧
        ((∃ kv ∈ domainPairs D, bodySols kv.1 kv.2 = []) →
          evalEvery D bodySols iter = .ok none))) := by
  constructor
  · intro h
    simp [evalEvery, h]
  · intro h
    by_cases hall : everyAll bodySols (domainPairs D) = true
    · have heval : evalEvery D bodySols iter = (iter ()).map some := by
        simp [evalEvery, h, hall]
      constructor
      · rw [heval]
        simp only [true_iff]
        exact (everyAll_true_iff bodySols (domainPairs D)).mp hall
      · rintro ⟨kv, hm, hemp⟩
        exact absurd hemp
          ((everyAll_true_iff bodySols (domainPairs D)).mp hall kv hm)
    · have heval : evalEvery D bodySols iter = .ok none := by
        simp only [evalEvery, h, Bool.not_true, Bool.false_eq_true, if_false]
        exact if_neg hall
      constructor
      · rw [heval]
        constructor
        · intro hcontr
          exact absurd hcontr.symm (map_some_ne_ok_none _)
        · intro hforall
          exact absurd ((everyAll_true_iff bodySols (domainPairs D)).mpr hforall) hall
      · intro _
        exact heval

theorem claim_C3_evalEvery_witness :
    evalEvery (Val.arr [Val.num 0]) (fun _ _ => [()])
      (fun _ => (Except.ok true : Except EErr Bool)) = .ok (some true) ∧
    evalEvery (Val.str "not iterable") (fun _ _ => [()])
      (fun _ => (Except.ok true : Except EErr Bool)) = .ok none := by
  constructor
  · exact ((claim_C3_evalEvery (Val.arr [Val.num 0]) (fun _ _ => [()])
      (fun _ => (Except.ok true : Except EErr Bool))).2 rfl).1.mpr
        (by intro kv _; simp)
  · exact (claim_C3_evalEvery (Val.str "not iterable") (fun _ _ => [()])
      (fun _ => (Except.ok true : Except EErr Bool))).1 rfl

/-! ### C2 helper lemmas -/

theorem evalValueRuleAux_all_eq (p : Val) (res : Option Val) (sols : List Val)
    (h : ∀ v ∈ sols, v = p) :
    evalValueRuleAux res (some p) sols =
      .ok (if sols.isEmpty then res else some p) := by
  induction sols generalizing res with
  | nil => rfl
  | cons v rest ih =>
    have hv : v = p := h v (List.mem_cons_self v rest)
    subst hv
    show (if v ≠ v then (.error .completeDocConflict : Except EErr (Option Val))
          else evalValueRuleAux (some v) (some v) rest) = _
    rw [if_neg (fun hn => hn rfl)]
    rw [ih (some v) (fun w hw => h w (List.mem_cons_of_mem v hw))]
    cases rest <;> simp

theorem evalValueRuleAux_conflict (p : Val) (res : Option Val) (sols : List Val)
    (h : ∃ v ∈ sols, v ≠ p) :
    evalValueRuleAux res (some p) sols = .error .completeDocConflict := by
  induction sols generalizing res with
  | nil => simp at h
  | cons v rest ih =>
    show (if v ≠ p then (.error .completeDocConflict : Except EErr (Option Val))
          else evalValueRuleAux (some v) (some p) rest) = _
    by_cases hvp : v = p
    · rw [if_neg (fun hn => hn hvp)]
      subst hvp
      rcases h with ⟨w, hw, hwp⟩
      rcases List.mem_cons.mp hw with h1 | h2
      · exact absurd h1 hwp
      · exact ih (some v) ⟨w, h2, hwp⟩
    · rw [if_pos hvp]

theorem evalValueRule_none_nil : evalValueRule none [] = .ok none := rfl

theorem evalValueRule_none_all_eq (v : Val) (rest : List Val)
    (h : ∀ w ∈ rest, w = v) :
    evalValueRule none (v :: rest) = .ok (some v) := by
  show evalValueRuleAux (some v) (some v) rest = _
  rw [evalValueRuleAux_all_eq v (some v) rest h]
  cases rest <;> simp

theorem evalValueRule_none_conflict (v : Val) (rest : List Val)
    (h : ∃ w ∈ rest, w ≠ v) :
    evalValueRule none (v :: rest) = .error .completeDocConflict := by
  show evalValueRuleAux (some v) (some v) rest = _
  exact evalValueRuleAux_conflict v (some v) rest h

theorem evalValueRule_some_all_eq (p : Val) (sols : List Val)
    (h : ∀ v ∈ sols, v = p) :
    evalValueRule (some p) sols = .ok (if sols.isEmpty then none else some p) :=
  evalValueRuleAux_all_eq p none sols h

theorem evalValueRule_some_conflict (p : Val) (sols : List Val)
    (h : ∃ v ∈ sols, v ≠ p) :
    evalValueRule (some p) sols = .error .completeDocConflict :=
  evalValueRuleAux_conflict p none sols h

theorem evalValueElse_some_all_eq (p : Val) (els : List (List Val))
    (h : ∀ v ∈ elseProduced els, v = p) :
    evalValueElse (some p) els =
      .ok (if (elseProduced els).isEmpty then none else some p) := by
  induction els with
  | nil => rfl
  | cons s rest ih =>
    cases s with
    | nil =>
      have hep : elseProduced ([] :: rest) = elseProduced rest := by
        simp [elseProduced]
      rw [hep] at h ⊢
      show (match evalValueRule (some p) [] with
            | .error e => (.error e : Except EErr (Option Val))
            | .ok (some v) => .ok (some v)
            | .ok none => evalValueElse (some p) rest) = _
      rw [show evalValueRule (some p) [] = .ok none from rfl]
      exact ih h
    | cons v vs =>
      have hep : elseProduced ((v :: vs) :: rest) = v :: vs := by
        simp [elseProduced]
      rw [hep] at h
      show (match evalValueRule (some p) (v :: vs) with
            | .error e => (.error e : Except EErr (Option Val))
            | .ok (some w) => .ok (some w)
            | .ok none => evalValueElse (some p) rest) = _
      rw [evalValueRule_some_all_eq p (v :: vs) h]
      rw [hep]
      simp

theorem evalValueElse_some_conflict (p : Val) (els : List (List Val))
    (h : ∃ v ∈ elseProduced els, v ≠ p) :
    evalValueElse (some p) els = .error .completeDocConflict := by
  induction els with
  | nil => simp [elseProduced] at h
  | cons s rest ih =>
    cases s with
    | nil =>
      have hep : elseProduced ([] :: rest) = elseProduced rest := by
        simp [elseProduced]
      rw [hep] at h
      show (match evalValueRule (some p) [] with
            | .error e => (.error e : Except EErr (Option Val))
            | .ok (some v) => .ok (some v)
            | .ok none => evalValueElse (some p) rest) = _
      rw [show evalValueRule (some p) [] = .ok none from rfl]
      exact ih h
    | cons v vs =>
      have hep : elseProduced ((v :: vs) :: rest) = v :: vs := by
        simp [elseProduced]
      rw [hep] at h
      show (match evalValueRule (some p) (v :: vs) with
            | .error e => (.error e : Except EErr (Option Val))
            | .ok (some w) => .ok (some w)
            | .ok none => evalValueElse (some p) rest) = _
      rw [evalValueRule_some_conflict p (v :: vs) h]

theorem evalValueElse_none_empty (els : List (List Val))
    (h : elseProduced els = []) :
    evalValueElse none els = .ok none := by
  induction els with
  | nil => rfl
  | cons s rest ih =>
    cases s with
    | nil =>
      have hep : elseProduced ([] :: rest) = elseProduced rest := by
        simp [elseProduced]
      rw [hep] at h
      show (match evalValueRule none [] with
            | .error e => (.error e : Except EErr (Option Val))
            | .ok (some v) => .ok (some v)
            | .ok none => evalValueElse none rest) = _
      rw [evalValueRule_none_nil]
      exact ih h
    | cons v vs =>
      have hep : elseProduced ((v :: vs) :: rest) = v :: vs := by
        simp [elseProduced]
      rw [hep] at h
      cases h


theorem evalValueElse_none_all_eq (els : List (List Val)) (v : Val)
    (vs : List Val) (h : elseProduced els = v :: vs)
    (hall : ∀ w ∈ vs, w = v) :
    evalValueElse none els = .ok (some v) := by
  induction els with
  | nil => cases h
  | cons s rest ih =>
    cases s with
    | nil =>
      have hep : elseProduced ([] :: rest) = elseProduced rest := by
        simp [elseProduced]
      rw [hep] at h
      show (match evalValueRule none [] with
            | .error e => (.error e : Except EErr (Option Val))
            | .ok (some w) => .ok (some w)
            | .ok none => evalValueElse none rest) = _
      rw [evalValueRule_none_nil]
      exact ih h
    | cons u us =>
      have hep : elseProduced ((u :: us) :: rest) = u :: us := by
        simp [elseProduced]
      rw [hep] at h
      injection h with h1 h2
      subst h1
      subst h2
      show (match evalValueRule none (u :: us) with
            | .error e => (.error e : Except EErr (Option Val))
            | .ok (some w) => .ok (some w)
            | .ok none => evalValueElse none rest) = _
      rw [evalValueRule_none_all_eq u us hall]

theorem evalValueElse_none_conflict (els : List (List Val)) (v : Val)
    (vs : List Val) (h : elseProduced els = v :: vs)
    (hconf : ∃ w ∈ vs, w ≠ v) :
    evalValueElse none els = .error .completeDocConflict := by
  induction els with
  | nil => cases h
  | cons s rest ih =>
    cases s with
    | nil =>
      have hep : elseProduced ([] :: rest) = elseProduced rest := by
        simp [elseProduced]
      rw [hep] at h
      show (match evalValueRule none [] with
            | .error e => (.error e : Except EErr (Option Val))
            | .ok (some w) => .ok (some w)
            | .ok none => evalValueElse none rest) = _
      rw [evalValueRule_none_nil]
      exact ih h
    | cons u us =>
      have hep : elseProduced ((u :: us) :: rest) = u :: us := by
        simp [elseProduced]
      rw [hep] at h
      injection h with h1 h2
      subst h1
      subst h2
      show (match evalValueRule none (u :: us) with
            | .error e => (.error e : Except EErr (Option Val))
            | .ok (some w) => .ok (some w)
            | .ok none => evalValueElse none rest) = _
      rw [evalValueRule_none_conflict u us hconf]

theorem rulesProduced_cons (r : RuleEval) (rest : List RuleEval) :
    rulesProduced (r :: rest) = ruleProduced r ++ rulesProduced rest := by
  simp [rulesProduced]

theorem evalValueRules_some_all_eq (p : Val) (rules : List RuleEval)
    (h : ∀ v ∈ rulesProduced rules, v = p) :
    evalValueRules (some p) rules = .ok (some p) := by
  induction rules with
  | nil => rfl
  | cons r rest ih =>
    rw [rulesProduced_cons] at h
    have h1 : ∀ v ∈ ruleProduced r, v = p :=
      fun v hv => h v (List.mem_append_left _ hv)
    have h2 : ∀ v ∈ rulesProduced rest, v = p :=
      fun v hv => h v (List.mem_append_right _ hv)
    show (match evalValueRule (some p) r.sols with
          | .error e => (.error e : Except EErr (Option Val))
          | .ok next =>
            match (match next with
                   | none => evalValueElse (some p) r.els
                   | some v => (.ok (some v) : Except EErr (Option Val))) with
            | .error e => .error e
            | .ok next2 =>
              evalValueRules
                (match next2 with | some v => some v | none => some p) rest) = _
    cases hs : r.sols with
    | nil =>
      rw [show evalValueRule (some p) [] = .ok none from rfl]
      have hrp : ruleProduced r = elseProduced r.els := by
        simp [ruleProduced, hs]
      rw [hrp] at h1
      rw [evalValueElse_some_all_eq p r.els h1]
      by_cases hE : (elseProduced r.els).isEmpty
      · simp only [hE, if_true]
        exact ih h2
      · simp only [hE, if_false]
        exact ih h2
    | cons v vs =>
      have hrp : ruleProduced r = v :: vs := by
        simp [ruleProduced, hs]
      rw [hrp] at h1
      rw [evalValueRule_some_all_eq p (v :: vs) h1]
      simp only [List.isEmpty_cons, if_false]
      exact ih h2

theorem evalValueRules_some_conflict (p : Val) (rules : List RuleEval)
    (h : ∃ v ∈ rulesProduced rules, v ≠ p) :
    evalValueRules (some p) rules = .error .completeDocConflict := by
  induction rules with
  | nil => simp [rulesProduced] at h
  | cons r rest ih =>
    rw [rulesProduced_cons] at h
    show (match evalValueRule (some p) r.sols with
          | .error e => (.error e : Except EErr (Option Val))
          | .ok next =>
            match (match next with
                   | none => evalValueElse (some p) r.els
                   | some v => (.ok (some v) : Except EErr (Option Val))) with
            | .error e => .error e
            | .ok next2 =>
              evalValueRules
                (match next2 with | some v => some v | none => some p) rest) = _
    by_cases hr : ∃ v ∈ ruleProduced r, v ≠ p
    · cases hs : r.sols with
      | nil =>
        rw [show evalValueRule (some p) [] = .ok none from rfl]
        have hrp : ruleProduced r = elseProduced r.els := by
          simp [ruleProduced, hs]
        rw [hrp] at hr
        rw [evalValueElse_some_conflict p r.els hr]
      | cons v vs =>
        have hrp : ruleProduced r = v :: vs := by
          simp [ruleProduced, hs]
        rw [hrp] at hr
        rw [evalValueRule_some_conflict p (v :: vs) hr]
    · push_neg at hr
      have h1 : ∀ v ∈ ruleProduced r, v = p := hr
      have h2 : ∃ v ∈ rulesProduced rest, v ≠ p := by
        rcases h with ⟨v, hv, hvp⟩
        rcases List.mem_append.mp hv with hL | hR
        · exact absurd (h1 v hL) hvp
        · exact ⟨v, hR, hvp⟩
      cases hs : r.sols with
      | nil =>
        rw [show evalValueRule (some p) [] = .ok none from rfl]
        have hrp : ruleProduced r = elseProduced r.els := by
          simp [ruleProduced, hs]
        rw [hrp] at h1
        rw [evalValueElse_some_all_eq p r.els h1]
        by_cases hE : (elseProduced r.els).isEmpty
        · simp only [hE, if_true]
          exact ih h2
        · simp only [hE, if_false]
          exact ih h2
      | cons v vs =>
        have hrp : ruleProduced r = v :: vs := by
          simp [ruleProduced, hs]
        rw [hrp] at h1
        rw [evalValueRule_some_all_eq p (v :: vs) h1]
        simp only [List.isEmpty_cons, if_false]
        exact ih h2

theorem evalValueRules_none_empty (rules : List RuleEval)
    (h : rulesProduced rules = []) :
    evalValueRules none rules = .ok none := by
  induction rules with
  | nil => rfl
  | cons r rest ih =>
    rw [rulesProduced_cons] at h
    rcases List.append_eq_nil.mp h with ⟨hL, hR⟩
    show (match evalValueRule none r.sols with
          | .error e => (.error e : Except EErr (Option Val))
          | .ok next =>
            match (match next with
                   | none => evalValueElse none r.els
                   | some v => (.ok (some v) : Except EErr (Option Val))) with
            | .error e => .error e
            | .ok next2 =>
              evalValueRules
                (match next2 with | some v => some v | none => none) rest) = _
    cases hs : r.sols with
    | nil =>
      rw [evalValueRule_none_nil]
      have hrp : ruleProduced r = elseProduced r.els := by
        simp [ruleProduced, hs]
      rw [hrp] at hL
      rw [evalValueElse_none_empty r.els hL]
      exact ih hR
    | cons v vs =>
      have hrp : ruleProduced r = v :: vs := by
        simp [ruleProduced, hs]
      rw [hrp] at hL
      cases hL

theorem evalValueRules_none_all_eq (rules : List RuleEval) (c : Val)
    (hmem : c ∈ rulesProduced rules)
    (hall : ∀ v ∈ rulesProduced rules, v = c) :
    evalValueRules none rules = .ok (some c) := by
  induction rules with
  | nil => simp [rulesProduced] at hmem
  | cons r rest ih =>
    rw [rulesProduced_cons] at hmem hall
    have h1 : ∀ v ∈ ruleProduced r, v = c :=
      fun v hv => hall v (List.mem_append_left _ hv)
    have h2 : ∀ v ∈ rulesProduced rest, v = c :=
      fun v hv => hall v (List.mem_append_right _ hv)
    show (match evalValueRule none r.sols with
          | .error e => (.error e : Except EErr (Option Val))
          | .ok next =>
            match (match next with
                   | none => evalValueElse none r.els
                   | some v => (.ok (some v) : Except EErr (Option Val))) with
            | .error e => .error e
            | .ok next2 =>
              evalValueRules
                (match next2 with | some v => some v | none => none) rest) = _
    cases hP : ruleProduced r with
    | nil =>
      have hs : r.sols = [] := by
        by_contra hne
        cases hs2 : r.sols with
        | nil => exact hne hs2
        | cons v vs =>
          have : ruleProduced r = v :: vs := by simp [ruleProduced, hs2]
          rw [hP] at this
          cases this
      have hep : elseProduced r.els = [] := by
        have : ruleProduced r = elseProduced r.els := by simp [ruleProduced, hs]
        rw [hP] at this
        exact this.symm
      rw [hs]
      rw [evalValueRule_none_nil]
      rw [evalValueElse_none_empty r.els hep]
      have hmem2 : c ∈ rulesProduced rest := by
        rcases List.mem_append.mp hmem with hL | hR
        · rw [hP] at hL; cases hL
        · exact hR
      exact ih hmem2 h2
    | cons v vs =>
      have hvc : v = c := by
        apply h1
        rw [hP]
        exact List.mem_cons_self v vs
      have hvs : ∀ w ∈ vs, w = v := by
        intro w hw
        rw [hvc]
        apply h1
        rw [hP]
        exact List.mem_cons_of_mem v hw
      have hrest : ∀ w ∈ rulesProduced rest, w = v := by
        intro w hw
        rw [hvc]
        exact h2 w hw
      cases hs : r.sols with
      | nil =>
        rw [evalValueRule_none_nil]
        have hep : elseProduced r.els = v :: vs := by
          have : ruleProduced r = elseProduced r.els := by simp [ruleProduced, hs]
          rw [hP] at this
          exact this.symm
        rw [evalValueElse_none_all_eq r.els v vs hep hvs]
        rw [hvc] at hrest ⊢
        exact evalValueRules_some_all_eq c rest hrest
      | cons u us =>
        have huv : u :: us = v :: vs := by
          have : ruleProduced r = u :: us := by simp [ruleProduced, hs]
          rw [hP] at this
          exact this.symm
        injection huv with huv1 huv2
        subst huv1
        subst huv2
        rw [evalValueRule_none_all_eq u us hvs]
        rw [hvc] at hrest ⊢
        exact evalValueRules_some_all_eq c rest hrest

theorem evalValueRules_none_conflict (rules : List RuleEval)
    (h : ∃ v ∈ rulesProduced rules, ∃ w ∈ rulesProduced rules, v ≠ w) :
    evalValueRules none rules = .error .completeDocConflict := by
  induction rules with
  | nil => simp [rulesProduced] at h
  | cons r rest ih =>
    rw [rulesProduced_cons] at h
    show (match evalValueRule none r.sols with
          | .error e => (.error e : Except EErr (Option Val))
          | .ok next =>
            match (match next with
                   | none => evalValueElse none r.els
                   | some v => (.ok (some v) : Except EErr (Option Val))) with
            | .error e => .error e
            | .ok next2 =>
              evalValueRules
                (match next2 with | some v => some v | none => none) rest) = _
    cases hP : ruleProduced r with
    | nil =>
      have hs : r.sols = [] := by
        cases hs2 : r.sols with
        | nil => rfl
        | cons v vs =>
          have : ruleProduced r = v :: vs := by simp [ruleProduced, hs2]
          rw [hP] at this
          cases this
      have hep : elseProduced r.els = [] := by
        have : ruleProduced r = elseProduced r.els := by simp [ruleProduced, hs]
        rw [hP] at this
        exact this.symm
      rw [hs]
      rw [evalValueRule_none_nil]
      rw [evalValueElse_none_empty r.els hep]
      apply ih
      rw [hP] at h
      simpa using h
    | cons v vs =>
      by_cases hin : ∀ w ∈ ruleProduced r, w = v
      · have hvs : ∀ w ∈ vs, w = v := by
          intro w hw
          apply hin
          rw [hP]
          exact List.mem_cons_of_mem v hw
        have hrest : ∃ u ∈ rulesProduced rest, u ≠ v := by
          rcases h with ⟨a, ha, b, hb, hab⟩
          rcases List.mem_append.mp ha with haL | haR
          · rcases List.mem_append.mp hb with hbL | hbR
            · exact absurd ((hin a haL).trans (hin b hbL).symm) hab
            · have hav : a = v := hin a haL
              refine ⟨b, hbR, ?_⟩
              intro hbv
              exact hab (hav.trans hbv.symm)
          · by_cases hav : a = v
            · rcases List.mem_append.mp hb with hbL | hbR
              · exact absurd (hav.trans (hin b hbL).symm) hab
              · refine ⟨b, hbR, ?_⟩
                intro hbv
                exact hab (hav.trans hbv.symm)
            · exact ⟨a, haR, hav⟩
        cases hs : r.sols with
        | nil =>
          rw [evalValueRule_none_nil]
          have hep : elseProduced r.els = v :: vs := by
            have : ruleProduced r = elseProduced r.els := by
              simp [ruleProduced, hs]
            rw [hP] at this
            exact this.symm
          rw [evalValueElse_none_all_eq r.els v vs hep hvs]
          exact evalValueRules_some_conflict v rest hrest
        | cons u us =>
          have huv : u :: us = v :: vs := by
            have : ruleProduced r = u :: us := by simp [ruleProduced, hs]
            rw [hP] at this
            exact this.symm
          injection huv with huv1 huv2
          subst huv1
          subst huv2
          rw [evalValueRule_none_all_eq u us hvs]
          exact evalValueRules_some_conflict u rest hrest
      · push_neg at hin
        rcases hin with ⟨w, hw, hwv⟩
        rw [hP] at hw
        have hwvs : w ∈ vs := by
          rcases List.mem_cons.mp hw with h1 | h2
          · exact absurd h1 hwv
          · exact h2
        cases hs : r.sols with
        | nil =>
          rw [evalValueRule_none_nil]
          have hep : elseProduced r.els = v :: vs := by
            have : ruleProduced r = elseProduced r.els := by
              simp [ruleProduced, hs]
            rw [hP] at this
            exact this.symm
          rw [evalValueElse_none_conflict r.els v vs hep ⟨w, hwvs, hwv⟩]
        | cons u us =>
          have huv : u :: us = v :: vs := by
            have : ruleProduced r = u :: us := by simp [ruleProduced, hs]
            rw [hP] at this
            exact this.symm
          injection huv with huv1 huv2
          subst huv1
          subst huv2
          rw [evalValueRule_none_conflict u us ⟨w, hwvs, hwv⟩]

theorem rulesProduced_perm {rules rules2 : List RuleEval}
    (h : rules.Perm rules2) :
    (rulesProduced rules).Perm (rulesProduced rules2) := by
  have h1 : rulesProduced rules = rules.flatMap ruleProduced := by
    simp [rulesProduced, List.flatMap_def]
  have h2 : rulesProduced rules2 = rules2.flatMap ruleProduced := by
    simp [rulesProduced, List.flatMap_def]
  rw [h1, h2]
  exact h.flatMap_right ruleProduced

theorem evalVirtualCompleteValue_characterisation (rules : List RuleEval)
    (dflt : Option Val) :
    evalVirtualCompleteValue rules dflt =
      if ∃ v ∈ rulesProduced rules, ∃ w ∈ rulesProduced rules, v ≠ w
      then .error .completeDocConflict
      else
        match rulesProduced rules with
        | [] => .ok dflt
        | c :: _ => .ok (some c) := by
  by_cases h : ∃ v ∈ rulesProduced rules, ∃ w ∈ rulesProduced rules, v ≠ w
  · rw [if_pos h]
    show (match evalValueRules none rules with
          | .error e => (.error e : Except EErr (Option Val))
          | .ok (some v) => .ok (some v)
          | .ok none => .ok dflt) = _
    rw [evalValueRules_none_conflict rules h]
  · rw [if_neg h]
    push_neg at h
    show (match evalValueRules none rules with
          | .error e => (.error e : Except EErr (Option Val))
          | .ok (some v) => .ok (some v)
          | .ok none => .ok dflt) = _
    cases hP : rulesProduced rules with
    | nil =>
      rw [evalValueRules_none_empty rules hP]
    | cons c l =>
      have hmem : c ∈ rulesProduced rules := by
        rw [hP]
        exact List.mem_cons_self c l
      have hall : ∀ v ∈ rulesProduced rules, v = c :=
        fun v hv => h v hv c hmem
      rw [evalValueRules_none_all_eq rules c hmem hall]

/-- C2: for a complete rule set at a ground reference (non-partial, cache
miss), evaluation aborts with `completeDocConflict` iff two succeeding rule
bodies (or their `else` chains) produce distinct plugged head values; with
all produced values equal no conflict is raised, and the whole outcome is
invariant under permuting the rule order. -/
theorem claim_C2_completeDocConflict (rules : List RuleEval) (dflt : Option Val) :
    (evalVirtualCompleteValue rules dflt = .error .completeDocConflict ↔
      ∃ v ∈ rulesProduced rules, ∃ w ∈ rulesProduced rules, v ≠ w) ∧
    (∀ rules2, rules.Perm rules2 →
      evalVirtualCompleteValue rules dflt = evalVirtualCompleteValue rules2 dflt) := by
  constructor
  · rw [evalVirtualCompleteValue_characterisation]
    by_cases h : ∃ v ∈ rulesProduced rules, ∃ w ∈ rulesProduced rules, v ≠ w
    · rw [if_pos h]
      simp only [true_iff]
      exact h
    · rw [if_neg h]
      constructor
      · intro hcontr
        cases hP : rulesProduced rules with
        | nil => rw [hP] at hcontr; cases hcontr
        | cons c l => rw [hP] at hcontr; cases hcontr
      · intro hcontr
        exact absurd hcontr h
  · intro rules2 hperm
    rw [evalVirtualCompleteValue_characterisation rules dflt,
      evalVirtualCompleteValue_characterisation rules2 dflt]
    have hp := rulesProduced_perm hperm
    by_cases h : ∃ v ∈ rulesProduced rules, ∃ w ∈ rulesProduced rules, v ≠ w
    · have h2 : ∃ v ∈ rulesProduced rules2, ∃ w ∈ rulesProduced rules2, v ≠ w := by
        rcases h with ⟨v, hv, w, hw, hvw⟩
        exact ⟨v, hp.mem_iff.mp hv, w, hp.mem_iff.mp hw, hvw⟩
      rw [if_pos h, if_pos h2]
    · have h2 : ¬∃ v ∈ rulesProduced rules2, ∃ w ∈ rulesProduced rules2, v ≠ w := by
        intro hcontr
        rcases hcontr with ⟨v, hv, w, hw, hvw⟩
        exact h ⟨v, hp.mem_iff.mpr hv, w, hp.mem_iff.mpr hw, hvw⟩
      rw [if_neg h, if_neg h2]
      push_neg at h
      cases hP : rulesProduced rules with
      | nil =>
        have hP2 : rulesProduced rules2 = [] := by
          have := hp
          rw [hP] at this
          exact this.symm.eq_nil
        rw [hP2]
      | cons c l =>
        have hmem2 : c ∈ rulesProduced rules2 := by
          apply hp.mem_iff.mp
          rw [hP]
          exact List.mem_cons_self c l
        cases hP2 : rulesProduced rules2 with
        | nil => rw [hP2] at hmem2; cases hmem2
        | cons c2 l2 =>
          have hc2 : c2 = c := by
            have hm : c2 ∈ rulesProduced rules := by
              apply hp.mem_iff.mpr
              rw [hP2]
              exact List.mem_cons_self c2 l2
            have hcmem : c ∈ rulesProduced rules := by
              rw [hP]
              exact List.mem_cons_self c l
            exact h c2 hm c hcmem
          rw [hc2]

theorem claim_C2_completeDocConflict_witness :
    evalVirtualCompleteValue
      [⟨[Val.num 1], []⟩, ⟨[Val.num 2], []⟩] none = .error .completeDocConflict ∧
    evalVirtualCompleteValue [⟨[Val.num 3], []⟩, ⟨[Val.num 3], []⟩] none =
      evalVirtualCompleteValue [⟨[Val.num 3], []⟩, ⟨[Val.num 3], []⟩] none := by
  constructor
  · exact (claim_C2_completeDocConflict
      [⟨[Val.num 1], []⟩, ⟨[Val.num 2], []⟩] none).1.mpr
      ⟨Val.num 1, by simp [rulesProduced, ruleProduced],
       Val.num 2, by simp [rulesProduced, ruleProduced], by simp⟩
  · exact (claim_C2_completeDocConflict
      [⟨[Val.num 3], []⟩, ⟨[Val.num 3], []⟩] none).2
      [⟨[Val.num 3], []⟩, ⟨[Val.num 3], []⟩] (List.Perm.refl _)

/-! ### C10: function-call cache hits -/

/-- C10: a virtual-cache hit for a function invoked without capturing its
output makes the call undefined when the cached value is literal `false`
(continuation not invoked), and makes it succeed immediately otherwise; in
both cases exactly one virtual-cache hit is counted and the rules are not
re-entered. -/
theorem claim_C10_evalFuncCache (vc : FuncCache) (key : List Val)
    (iter : Unit → Except EErr σ) (unifyOut : Val → Except EErr σ)
    (cached : Val) (h : vcGet vc key = some cached) :
    (cached = Val.bool false →
      evalFuncValueCached vc key false iter unifyOut =
        { hits := 1, misses := 0, hit := true, rulesEvaluated := false,
          res := .ok none }) ∧
    (cached ≠ Val.bool false →
      evalFuncValueCached vc key false iter unifyOut =
        { hits := 1, misses := 0, hit := true, rulesEvaluated := false,
          res := (iter ()).map some }) := by
  constructor
  · intro hfalse
    simp [evalFuncValueCached, h, hfalse]
  · intro hnot
    simp [evalFuncValueCached, h, hnot]

theorem claim_C10_evalFuncCache_witness :
    evalFuncValueCached [([Val.str "f"], Val.bool false)] [Val.str "f"] false
      (fun _ => (Except.ok 0 : Except EErr Nat)) (fun _ => Except.ok 1) =
      { hits := 1, misses := 0, hit := true, rulesEvaluated := false,
        res := .ok none } ∧
    evalFuncValueCached [([Val.str "g"], Val.num 5)] [Val.str "g"] false
      (fun _ => (Except.ok 0 : Except EErr Nat)) (fun _ => Except.ok 1) =
      { hits := 1, misses := 0, hit := true, rulesEvaluated := false,
        res := .ok (some 0) } := by
  constructor
  · exact (claim_C10_evalFuncCache [([Val.str "f"], Val.bool false)]
      [Val.str "f"] (fun _ => (Except.ok 0 : Except EErr Nat))
      (fun _ => Except.ok 1) (Val.bool false) rfl).1 rfl
  · exact (claim_C10_evalFuncCache [([Val.str "g"], Val.num 5)]
      [Val.str "g"] (fun _ => (Except.ok 0 : Except EErr Nat))
      (fun _ => Except.ok 1) (Val.num 5) rfl).2 (by simp)

/-! ### C7: built-in error accumulation -/

theorem runBuiltinOutputs_all_ok (handler : Val → Except BuiltinCallErr Unit)
    (outputs : List Val) (fin : Option BuiltinCallErr)
    (h : ∀ o ∈ outputs, handler o = .ok ()) :
    runBuiltinOutputs handler outputs fin =
      match fin with
      | some e => .error e
      | none => .ok () := by
  induction outputs with
  | nil => rfl
  | cons o rest ih =>
    show (match handler o with
          | .error e => (.error e : Except BuiltinCallErr Unit)
          | .ok _ => runBuiltinOutputs handler rest fin) = _
    rw [h o (List.mem_cons_self o rest)]
    exact ih (fun o2 ho2 => h o2 (List.mem_cons_of_mem o ho2))

/-- C7: a non-`Halt` error from a built-in implementation is appended to
the per-query built-in error list and the call evaluates as undefined
(`eval` returns no error); an error wrapped in `Halt` is unwrapped and
propagated, leaving the error list unchanged. -/
theorem claim_C7_builtinErrors (hasResultDecl captured : Bool)
    (unifyOut : Val → Except EErr Unit) (iter : Unit → Except EErr Unit)
    (outputs : List Val) (errs : List String) (m : String) (e : EErr)
    (hok : ∀ o ∈ outputs,
      builtinOutputHandler hasResultDecl captured unifyOut iter o = .ok ()) :
    evalBuiltinEval hasResultDecl captured unifyOut iter outputs
      (some (.builtinErr m)) errs = (.ok (), errs ++ [m]) ∧
    evalBuiltinEval hasResultDecl captured unifyOut iter outputs
      (some (.halt e)) errs = (.error e, errs) := by
  constructor
  · show evalBuiltinHandleErr _ _ = _
    rw [runBuiltinOutputs_all_ok _ outputs _ hok]
    rfl
  · show evalBuiltinHandleErr _ _ = _
    rw [runBuiltinOutputs_all_ok _ outputs _ hok]
    rfl

theorem claim_C7_builtinErrors_witness :
    evalBuiltinEval false false (fun _ => Except.ok ()) (fun _ => Except.ok ())
      [] (some (.builtinErr "div by zero")) [] = (.ok (), ["div by zero"]) ∧
    evalBuiltinEval false false (fun _ => Except.ok ()) (fun _ => Except.ok ())
      [] (some (.halt .cancel)) [] = (.error .cancel, []) := by
  have h := claim_C7_builtinErrors false false (fun _ => Except.ok ())
    (fun _ => Except.ok ()) [] [] "div by zero" .cancel (by intro o ho; cases ho)
  exact ⟨h.1, h.2⟩

/-! ### C6: object comprehension key conflicts (code bug)

The direct materialisation path checks duplicate keys; the source of
`buildComprehensionCacheObject` inserts into the cached object without any
check, so a conflicting duplicate key is silently overwritten on the cache
path. -/

/-- C6 (code bug): two body solutions producing the same key `"k"` with the
distinct values `1` and `2`.  Direct materialisation raises
`object_key_conflict`; the comprehension-cache build path (index keys
plugged to the empty list) succeeds silently, the second value
overwriting the first. -/
theorem claim_C6_cache_path_silent_overwrite :
    biunifyComprehensionObjectRun
      [(Val.str "k", Val.num 1), (Val.str "k", Val.num 2)] =
      .error .objectKeyConflict ∧
    buildComprehensionCacheObjectRun
      [([], Val.str "k", Val.num 1), ([], Val.str "k", Val.num 2)] =
      .ok [([], [(Val.str "k", Val.num 2)])] := by
  constructor
  · rfl
  · rfl

/-! ### C9: biunifying terms dereferencing to the same variable -/

/-- C9: when both sides dereference (one `apply` step) to the same variable
in the same bindings frame, biunification calls the continuation exactly
once, creates no binding, and leaves the store unchanged (the continuation
itself receives the unchanged store). -/
theorem claim_C9_biunify_same_var (st : Store) (a b : TermV) (f1 f2 g : Nat)
    (x : String) (iter : Store → Except EErr σ)
    (ha : bindingsApply st f1 a = (.var x, g))
    (hb : bindingsApply st f2 b = (.var x, g)) :
    biunify st a b f1 f2 iter = (iter st).map (fun r => (some r, st)) := by
  unfold biunify
  rw [ha, hb]
  unfold biunifyValues
  simp

/-! ### C8: merge totality and the dead conflict branch -/

mutual

theorem mergeObjects_isSome (fa fb : List (Val × Val)) :
    (mergeObjects fa fb).isSome := by
  unfold mergeObjects
  split
  · rename_i hm
    have hrec := mergeObjectsA_isSome fa fb
    rw [hm] at hrec
    simp at hrec
  · simp
termination_by (sizeOf fa, 1)

theorem mergeObjectsA_isSome (fa fb : List (Val × Val)) :
    (mergeObjectsA fa fb).isSome := by
  unfold mergeObjectsA
  split
  · simp
  · rename_i k v rest
    split
    · simpa using mergeObjectsA_isSome rest fb
    · split
      · rename_i o1 o2 hvv
        split
        · rename_i hm
          have hrec := mergeObjects_isSome o1 o2
          rw [hm] at hrec
          simp at hrec
        · simpa using mergeObjectsA_isSome rest fb
      · simpa using mergeObjectsA_isSome rest fb
termination_by (sizeOf fa, 0)

end

theorem objGet_append_left (xs ys : List (Val × Val)) (k v : Val)
    (h : objGet xs k = some v) : objGet (xs ++ ys) k = some v := by
  induction xs with
  | nil => cases h
  | cons kv rest ih =>
    obtain ⟨k1, v1⟩ := kv
    show (if k1 = k then some v1 else objGet (rest ++ ys) k) = some v
    by_cases hk : k1 = k
    · rw [if_pos hk]
      rw [show objGet ((k1, v1) :: rest) k = some v1 from if_pos hk] at h
      exact h
    · rw [if_neg hk]
      apply ih
      rw [show objGet ((k1, v1) :: rest) k = objGet rest k from if_neg hk] at h
      exact h

theorem objGet_cons_pos (k1 v1 k : Val) (rest : List (Val × Val))
    (hk : k1 = k) : objGet ((k1, v1) :: rest) k = some v1 :=
  if_pos hk

theorem objGet_cons_neg (k1 v1 k : Val) (rest : List (Val × Val))
    (hk : ¬k1 = k) : objGet ((k1, v1) :: rest) k = objGet rest k :=
  if_neg hk

theorem mergeObjectsA_first_wins (fa : List (Val × Val)) :
    ∀ (fb part : List (Val × Val)) (k v w : Val),
      mergeObjectsA fa fb = some part →
      objGet fa k = some v → objGet fb k = some w →
      (isObjVal v && isObjVal w) = false →
      objGet part k = some v := by
  induction fa with
  | nil =>
    intro fb part k v w _ hv _ _
    cases hv
  | cons kv rest ih =>
    intro fb part k v w hA hv hw hno
    obtain ⟨k1, v1⟩ := kv
    unfold mergeObjectsA at hA
    split at hA
    · -- objGet fb k1 = none
      rename_i hg
      rcases Option.map_eq_some'.mp hA with ⟨part', hA', hpart⟩
      rw [← hpart]
      by_cases hk : k1 = k
      · subst hk
        rw [hg] at hw
        cases hw
      · rw [objGet_cons_neg k1 v1 k part' hk]
        rw [objGet_cons_neg k1 v1 k rest hk] at hv
        exact ih fb part' k v w hA' hv hw hno
    · -- objGet fb k1 = some v2
      rename_i v2 hg
      split at hA
      · -- v1 and v2 are both objects
        rename_i o1 o2
        split at hA
        · cases hA
        · rename_i o3 hm
          rcases Option.map_eq_some'.mp hA with ⟨part', hA', hpart⟩
          rw [← hpart]
          by_cases hk : k1 = k
          · subst hk
            exfalso
            rw [objGet_cons_pos k1 (Val.obj o1) k1 rest rfl] at hv
            injection hv with hv2
            rw [hg] at hw
            injection hw with hw2
            rw [← hv2, ← hw2] at hno
            simp [isObjVal] at hno
          · rw [objGet_cons_neg k1 (Val.obj o3) k part' hk]
            rw [objGet_cons_neg k1 (Val.obj o1) k rest hk] at hv
            exact ih fb part' k v w hA' hv hw hno
      · -- at least one of v1, v2 is not an object: objA's pair is kept
        rcases Option.map_eq_some'.mp hA with ⟨part', hA', hpart⟩
        rw [← hpart]
        by_cases hk : k1 = k
        · subst hk
          rw [objGet_cons_pos k1 v1 k1 rest rfl] at hv
          rw [objGet_cons_pos k1 v1 k1 part' rfl]
          exact hv
        · rw [objGet_cons_neg k1 v1 k part' hk]
          rw [objGet_cons_neg k1 v1 k rest hk] at hv
          exact ih fb part' k v w hA' hv hw hno

theorem mergeVals_isSome (a b : Val) : (mergeVals a b).isSome := by
  unfold mergeVals
  split
  · rename_i fa fb
    have := mergeObjects_isSome fa fb
    cases hm : mergeObjects fa fb with
    | none => rw [hm] at this; simp at this
    | some r => simp [hm]
  · simp

theorem resolveBaseCacheHit_ok (rep : Option Val) (real : Val) :
    ∃ u, resolveBaseCacheHit rep real = .ok u := by
  cases rep with
  | none => exact ⟨real, rfl⟩
  | some rv =>
    cases hm : mergeVals rv real with
    | none =>
      have := mergeVals_isSome rv real
      rw [hm] at this
      simp at this
    | some m =>
      refine ⟨m, ?_⟩
      show (match mergeVals rv real with
            | some merged => (.ok merged : Except EErr Val)
            | none => .error .mergeConflict) = _
      rw [hm]

/-- C8: `mergeObjects` is total (`ok` is always true; likewise `merge`); at
a key present in both objects where at least one side's value is not an
object, the first (overlay) object's value is kept; consequently the
merge-conflict branch in the resolver's base-cache read is never taken. -/
theorem claim_C8_merge_total (fa fb : List (Val × Val)) (k v w : Val)
    (hv : objGet fa k = some v) (hw : objGet fb k = some w)
    (hno : (isObjVal v && isObjVal w) = false) :
    (∀ a b : Val, (mergeVals a b).isSome) ∧
    (∀ r, mergeObjects fa fb = some r → objGet r k = some v) ∧
    (∀ rep real, ∃ u, resolveBaseCacheHit rep real = .ok u) := by
  refine ⟨mergeVals_isSome, ?_, resolveBaseCacheHit_ok⟩
  intro r hr
  unfold mergeObjects at hr
  split at hr
  · cases hr
  · rename_i part hA
    injection hr with hr2
    rw [← hr2]
    exact objGet_append_left part _ k v
      (mergeObjectsA_first_wins fa fb part k v w hA hv hw hno)

theorem claim_C8_merge_total_witness :
    (∀ a b : Val, (mergeVals a b).isSome) ∧
    (∀ r, mergeObjects [(Val.str "a", Val.num 1)] [(Val.str "a", Val.num 2)] =
      some r → objGet r (Val.str "a") = some (Val.num 1)) ∧
    (∀ rep real, ∃ u, resolveBaseCacheHit rep real = .ok u) :=
  claim_C8_merge_total [(Val.str "a", Val.num 1)] [(Val.str "a", Val.num 2)]
    (Val.str "a") (Val.num 1) (Val.num 2) (by simp [objGet])
    (by simp [objGet]) rfl

theorem claim_C9_biunify_same_var_witness :
    biunify [[]] (.var "x") (.var "x") 0 0
      (fun s => (Except.ok s.length : Except EErr Nat)) = .ok (some 1, [[]]) :=
  claim_C9_biunify_same_var [[]] (.var "x") (.var "x") 0 0 0 "x"
    (fun s => (Except.ok s.length : Except EErr Nat)) rfl rfl

/-! ### C5 helper lemmas -/

theorem evalOneRuleSols_some_all_eq (captured : Bool) (p : Val)
    (res : Option Val) (iters : Nat) (sols : List Val)
    (h : ∀ v ∈ sols, v = p) :
    evalOneRuleSols captured res (some p) iters sols =
      .ok ((if sols.isEmpty then res else some p), some p, iters) := by
  induction sols generalizing res with
  | nil => rfl
  | cons v rest ih =>
    have hv : v = p := h v (List.mem_cons_self v rest)
    subst hv
    show (if !captured && v = Val.bool false then
            (if v ≠ v then
              (.error .functionConflict : Except EErr (Option Val × Option Val × Nat))
             else evalOneRuleSols captured (some v) (some v) iters rest)
          else
            (if v ≠ v then
              (.error .functionConflict : Except EErr (Option Val × Option Val × Nat))
             else evalOneRuleSols captured (some v) (some v) iters rest)) = _
    rw [ite_self]
    rw [if_neg (fun hn => hn rfl)]
    rw [ih (some v) (fun w hw => h w (List.mem_cons_of_mem v hw))]
    cases rest <;> simp

theorem evalOneRuleSols_some_conflict (captured : Bool) (p : Val)
    (res : Option Val) (iters : Nat) (sols : List Val)
    (h : ∃ v ∈ sols, v ≠ p) :
    evalOneRuleSols captured res (some p) iters sols =
      .error .functionConflict := by
  induction sols generalizing res with
  | nil => simp at h
  | cons v rest ih =>
    show (if !captured && v = Val.bool false then
            (if v ≠ p then
              (.error .functionConflict : Except EErr (Option Val × Option Val × Nat))
             else evalOneRuleSols captured (some v) (some v) iters rest)
          else
            (if v ≠ p then
              (.error .functionConflict : Except EErr (Option Val × Option Val × Nat))
             else evalOneRuleSols captured (some v) (some p) iters rest)) = _
    by_cases hvp : v = p
    · subst hvp
      rcases h with ⟨w, hw, hwp⟩
      rcases List.mem_cons.mp hw with h1 | h2
      · exact absurd h1 hwp
      · rw [ite_self]
        rw [if_neg (fun hn => hn rfl)]
        exact ih (some v) ⟨w, h2, hwp⟩
    · by_cases hb : (!captured && v = Val.bool false) = true
      · rw [if_pos hb, if_pos hvp]
      · rw [if_neg hb, if_pos hvp]

theorem evalOneRuleSols_none_all_eq (captured : Bool) (v : Val)
    (res : Option Val) (iters : Nat) (rest : List Val)
    (h : ∀ w ∈ rest, w = v) :
    evalOneRuleSols captured res none iters (v :: rest) =
      .ok (some v, some v,
        iters + (if (!captured && v = Val.bool false) = true then 0 else 1)) := by
  show (if !captured && v = Val.bool false then
          evalOneRuleSols captured (some v) (some v) iters rest
        else
          evalOneRuleSols captured (some v) (some v) (iters + 1) rest) = _
  by_cases hb : (!captured && v = Val.bool false) = true
  · rw [if_pos hb]
    rw [evalOneRuleSols_some_all_eq captured v (some v) iters rest h]
    rw [if_pos hb]
    cases rest <;> simp
  · rw [if_neg hb]
    rw [evalOneRuleSols_some_all_eq captured v (some v) (iters + 1) rest h]
    rw [if_neg hb]
    cases rest <;> simp

theorem evalOneRuleSols_none_conflict (captured : Bool) (v : Val)
    (res : Option Val) (iters : Nat) (rest : List Val)
    (h : ∃ w ∈ rest, w ≠ v) :
    evalOneRuleSols captured res none iters (v :: rest) =
      .error .functionConflict := by
  show (if !captured && v = Val.bool false then
          evalOneRuleSols captured (some v) (some v) iters rest
        else
          evalOneRuleSols captured (some v) (some v) (iters + 1) rest) = _
  by_cases hb : (!captured && v = Val.bool false) = true
  · rw [if_pos hb]
    exact evalOneRuleSols_some_conflict captured v (some v) iters rest h
  · rw [if_neg hb]
    exact evalOneRuleSols_some_conflict captured v (some v) (iters + 1) rest h

theorem evalFuncElse_some_all_eq (captured : Bool) (p : Val) (iters : Nat)
    (els : List (List Val)) (h : ∀ v ∈ elseProduced els, v = p) :
    evalFuncElse captured (some p) iters els =
      .ok ((if (elseProduced els).isEmpty then none else some p), iters) := by
  induction els generalizing iters with
  | nil => rfl
  | cons s rest ih =>
    cases s with
    | nil =>
      have hep : elseProduced ([] :: rest) = elseProduced rest := by
        simp [elseProduced]
      rw [hep] at h ⊢
      show (match evalOneRuleSols captured none (some p) iters [] with
            | .error e => (.error e : Except EErr (Option Val × Nat))
            | .ok (next, _, iters2) =>
              match next with
              | some v => .ok (some v, iters2)
              | none => evalFuncElse captured (some p) iters2 rest) = _
      rw [show evalOneRuleSols captured none (some p) iters [] =
        .ok (none, some p, iters) from rfl]
      exact ih iters h
    | cons v vs =>
      have hep : elseProduced ((v :: vs) :: rest) = v :: vs := by
        simp [elseProduced]
      rw [hep] at h
      show (match evalOneRuleSols captured none (some p) iters (v :: vs) with
            | .error e => (.error e : Except EErr (Option Val × Nat))
            | .ok (next, _, iters2) =>
              match next with
              | some w => .ok (some w, iters2)
              | none => evalFuncElse captured (some p) iters2 rest) = _
      rw [evalOneRuleSols_some_all_eq captured p none iters (v :: vs) h]
      rw [hep]
      simp

theorem evalFuncElse_some_conflict (captured : Bool) (p : Val) (iters : Nat)
    (els : List (List Val)) (h : ∃ v ∈ elseProduced els, v ≠ p) :
    evalFuncElse captured (some p) iters els = .error .functionConflict := by
  induction els generalizing iters with
  | nil => simp [elseProduced] at h
  | cons s rest ih =>
    cases s with
    | nil =>
      have hep : elseProduced ([] :: rest) = elseProduced rest := by
        simp [elseProduced]
      rw [hep] at h
      show (match evalOneRuleSols captured none (some p) iters [] with
            | .error e => (.error e : Except EErr (Option Val × Nat))
            | .ok (next, _, iters2) =>
              match next with
              | some v => .ok (some v, iters2)
              | none => evalFuncElse captured (some p) iters2 rest) = _
      rw [show evalOneRuleSols captured none (some p) iters [] =
        .ok (none, some p, iters) from rfl]
      exact ih iters h
    | cons v vs =>
      have hep : elseProduced ((v :: vs) :: rest) = v :: vs := by
        simp [elseProduced]
      rw [hep] at h
      show (match evalOneRuleSols captured none (some p) iters (v :: vs) with
            | .error e => (.error e : Except EErr (Option Val × Nat))
            | .ok (next, _, iters2) =>
              match next with
              | some w => .ok (some w, iters2)
              | none => evalFuncElse captured (some p) iters2 rest) = _
      rw [evalOneRuleSols_some_conflict captured p none iters (v :: vs) h]

theorem evalFuncElse_none_empty (captured : Bool) (iters : Nat)
    (els : List (List Val)) (h : elseProduced els = []) :
    evalFuncElse captured none iters els = .ok (none, iters) := by
  induction els generalizing iters with
  | nil => rfl
  | cons s rest ih =>
    cases s with
    | nil =>
      have hep : elseProduced ([] :: rest) = elseProduced rest := by
        simp [elseProduced]
      rw [hep] at h
      show (match evalOneRuleSols captured none none iters [] with
            | .error e => (.error e : Except EErr (Option Val × Nat))
            | .ok (next, _, iters2) =>
              match next with
              | some v => .ok (some v, iters2)
              | none => evalFuncElse captured none iters2 rest) = _
      rw [show evalOneRuleSols captured none none iters [] =
        .ok (none, none, iters) from rfl]
      exact ih iters h
    | cons v vs =>
      have hep : elseProduced ((v :: vs) :: rest) = v :: vs := by
        simp [elseProduced]
      rw [hep] at h
      cases h

theorem evalFuncElse_none_all_eq (captured : Bool) (iters : Nat)
    (els : List (List Val)) (v : Val) (vs : List Val)
    (h : elseProduced els = v :: vs) (hall : ∀ w ∈ vs, w = v) :
    evalFuncElse captured none iters els =
      .ok (some v,
        iters + (if (!captured && v = Val.bool false) = true then 0 else 1)) := by
  induction els generalizing iters with
  | nil => cases h
  | cons s rest ih =>
    cases s with
    | nil =>
      have hep : elseProduced ([] :: rest) = elseProduced rest := by
        simp [elseProduced]
      rw [hep] at h
      show (match evalOneRuleSols captured none none iters [] with
            | .error e => (.error e : Except EErr (Option Val × Nat))
            | .ok (next, _, iters2) =>
              match next with
              | some w => .ok (some w, iters2)
              | none => evalFuncElse captured none iters2 rest) = _
      rw [show evalOneRuleSols captured none none iters [] =
        .ok (none, none, iters) from rfl]
      exact ih iters h
    | cons u us =>
      have hep : elseProduced ((u :: us) :: rest) = u :: us := by
        simp [elseProduced]
      rw [hep] at h
      injection h with h1 h2
      subst h1
      subst h2
      show (match evalOneRuleSols captured none none iters (u :: us) with
            | .error e => (.error e : Except EErr (Option Val × Nat))
            | .ok (next, _, iters2) =>
              match next with
              | some w => .ok (some w, iters2)
              | none => evalFuncElse captured none iters2 rest) = _
      rw [evalOneRuleSols_none_all_eq captured u none iters us hall]

theorem evalFuncElse_none_conflict (captured : Bool) (iters : Nat)
    (els : List (List Val)) (v : Val) (vs : List Val)
    (h : elseProduced els = v :: vs) (hconf : ∃ w ∈ vs, w ≠ v) :
    evalFuncElse captured none iters els = .error .functionConflict := by
  induction els generalizing iters with
  | nil => cases h
  | cons s rest ih =>
    cases s with
    | nil =>
      have hep : elseProduced ([] :: rest) = elseProduced rest := by
        simp [elseProduced]
      rw [hep] at h
      show (match evalOneRuleSols captured none none iters [] with
            | .error e => (.error e : Except EErr (Option Val × Nat))
            | .ok (next, _, iters2) =>
              match next with
              | some w => .ok (some w, iters2)
              | none => evalFuncElse captured none iters2 rest) = _
      rw [show evalOneRuleSols captured none none iters [] =
        .ok (none, none, iters) from rfl]
      exact ih iters h
    | cons u us =>
      have hep : elseProduced ((u :: us) :: rest) = u :: us := by
        simp [elseProduced]
      rw [hep] at h
      injection h with h1 h2
      subst h1
      subst h2
      show (match evalOneRuleSols captured none none iters (u :: us) with
            | .error e => (.error e : Except EErr (Option Val × Nat))
            | .ok (next, _, iters2) =>
              match next with
              | some w => .ok (some w, iters2)
              | none => evalFuncElse captured none iters2 rest) = _
      rw [evalOneRuleSols_none_conflict captured u none iters us hconf]

theorem evalFuncRules_some_all_eq (captured : Bool) (p : Val) (iters : Nat)
    (rules : List RuleEval) (h : ∀ v ∈ rulesProduced rules, v = p) :
    evalFuncRules captured (some p) iters rules = .ok (some p, iters) := by
  induction rules generalizing iters with
  | nil => rfl
  | cons r rest ih =>
    rw [rulesProduced_cons] at h
    have h1 : ∀ v ∈ ruleProduced r, v = p :=
      fun v hv => h v (List.mem_append_left _ hv)
    have h2 : ∀ v ∈ rulesProduced rest, v = p :=
      fun v hv => h v (List.mem_append_right _ hv)
    show (match evalOneRuleSols captured none (some p) iters r.sols with
          | .error e => (.error e : Except EErr (Option Val × Nat))
          | .ok (next, _, iters2) =>
            match (match next with
                   | none => evalFuncElse captured (some p) iters2 r.els
                   | some v => (.ok (some v, iters2) :
                       Except EErr (Option Val × Nat))) with
            | .error e => .error e
            | .ok (next2, iters3) =>
              evalFuncRules captured
                (match next2 with | some v => some v | none => some p)
                iters3 rest) = _
    cases hs : r.sols with
    | nil =>
      show (match evalFuncElse captured (some p) iters r.els with
            | .error e => (.error e : Except EErr (Option Val × Nat))
            | .ok (next2, iters3) =>
              evalFuncRules captured
                (match next2 with | some v => some v | none => some p)
                iters3 rest) = _
      have hrp : ruleProduced r = elseProduced r.els := by
        simp [ruleProduced, hs]
      rw [hrp] at h1
      rw [evalFuncElse_some_all_eq captured p iters r.els h1]
      by_cases hE : (elseProduced r.els).isEmpty
      · simp only [hE, if_true]
        exact ih iters h2
      · simp only [hE, if_false]
        exact ih iters h2
    | cons v vs =>
      have hrp : ruleProduced r = v :: vs := by
        simp [ruleProduced, hs]
      rw [hrp] at h1
      rw [evalOneRuleSols_some_all_eq captured p none iters (v :: vs) h1]
      simp only [List.isEmpty_cons, if_false]
      exact ih iters h2

theorem evalFuncRules_some_conflict (captured : Bool) (p : Val) (iters : Nat)
    (rules : List RuleEval) (h : ∃ v ∈ rulesProduced rules, v ≠ p) :
    evalFuncRules captured (some p) iters rules = .error .functionConflict := by
  induction rules generalizing iters with
  | nil => simp [rulesProduced] at h
  | cons r rest ih =>
    rw [rulesProduced_cons] at h
    show (match evalOneRuleSols captured none (some p) iters r.sols with
          | .error e => (.error e : Except EErr (Option Val × Nat))
          | .ok (next, _, iters2) =>
            match (match next with
                   | none => evalFuncElse captured (some p) iters2 r.els
                   | some v => (.ok (some v, iters2) :
                       Except EErr (Option Val × Nat))) with
            | .error e => .error e
            | .ok (next2, iters3) =>
              evalFuncRules captured
                (match next2 with | some v => some v | none => some p)
                iters3 rest) = _
    by_cases hr : ∃ v ∈ ruleProduced r, v ≠ p
    · cases hs : r.sols with
      | nil =>
        show (match evalFuncElse captured (some p) iters r.els with
              | .error e => (.error e : Except EErr (Option Val × Nat))
              | .ok (next2, iters3) =>
                evalFuncRules captured
                  (match next2 with | some v => some v | none => some p)
                  iters3 rest) = _
        have hrp : ruleProduced r = elseProduced r.els := by
          simp [ruleProduced, hs]
        rw [hrp] at hr
        rw [evalFuncElse_some_conflict captured p iters r.els hr]
      | cons v vs =>
        have hrp : ruleProduced r = v :: vs := by
          simp [ruleProduced, hs]
        rw [hrp] at hr
        rw [evalOneRuleSols_some_conflict captured p none iters (v :: vs) hr]
    · push_neg at hr
      have h2 : ∃ v ∈ rulesProduced rest, v ≠ p := by
        rcases h with ⟨v, hv, hvp⟩
        rcases List.mem_append.mp hv with hL | hR
        · exact absurd (hr v hL) hvp
        · exact ⟨v, hR, hvp⟩
      cases hs : r.sols with
      | nil =>
        show (match evalFuncElse captured (some p) iters r.els with
              | .error e => (.error e : Except EErr (Option Val × Nat))
              | .ok (next2, iters3) =>
                evalFuncRules captured
                  (match next2 with | some v => some v | none => some p)
                  iters3 rest) = _
        have hrp : ruleProduced r = elseProduced r.els := by
          simp [ruleProduced, hs]
        rw [hrp] at hr
        rw [evalFuncElse_some_all_eq captured p iters r.els hr]
        by_cases hE : (elseProduced r.els).isEmpty
        · simp only [hE, if_true]
          exact ih iters h2
        · simp only [hE, if_false]
          exact ih iters h2
      | cons v vs =>
        have hrp : ruleProduced r = v :: vs := by
          simp [ruleProduced, hs]
        rw [hrp] at hr
        rw [evalOneRuleSols_some_all_eq captured p none iters (v :: vs) hr]
        simp only [List.isEmpty_cons, if_false]
        exact ih iters h2

theorem evalFuncRules_none_empty (captured : Bool) (iters : Nat)
    (rules : List RuleEval) (h : rulesProduced rules = []) :
    evalFuncRules captured none iters rules = .ok (none, iters) := by
  induction rules generalizing iters with
  | nil => rfl
  | cons r rest ih =>
    rw [rulesProduced_cons] at h
    rcases List.append_eq_nil.mp h with ⟨hL, hR⟩
    show (match evalOneRuleSols captured none none iters r.sols with
          | .error e => (.error e : Except EErr (Option Val × Nat))
          | .ok (next, _, iters2) =>
            match (match next with
                   | none => evalFuncElse captured none iters2 r.els
                   | some v => (.ok (some v, iters2) :
                       Except EErr (Option Val × Nat))) with
            | .error e => .error e
            | .ok (next2, iters3) =>
              evalFuncRules captured
                (match next2 with | some v => some v | none => none)
                iters3 rest) = _
    cases hs : r.sols with
    | nil =>
      show (match evalFuncElse captured none iters r.els with
            | .error e => (.error e : Except EErr (Option Val × Nat))
            | .ok (next2, iters3) =>
              evalFuncRules captured
                (match next2 with | some v => some v | none => none)
                iters3 rest) = _
      have hrp : ruleProduced r = elseProduced r.els := by
        simp [ruleProduced, hs]
      rw [hrp] at hL
      rw [evalFuncElse_none_empty captured iters r.els hL]
      exact ih iters hR
    | cons v vs =>
      have hrp : ruleProduced r = v :: vs := by
        simp [ruleProduced, hs]
      rw [hrp] at hL
      cases hL

theorem evalFuncRules_none_all_eq (captured : Bool) (iters : Nat)
    (rules : List RuleEval) (c : Val)
    (hmem : c ∈ rulesProduced rules)
    (hall : ∀ v ∈ rulesProduced rules, v = c) :
    evalFuncRules captured none iters rules =
      .ok (some c,
        iters + (if (!captured && c = Val.bool false) = true then 0 else 1)) := by
  induction rules generalizing iters with
  | nil => simp [rulesProduced] at hmem
  | cons r rest ih =>
    rw [rulesProduced_cons] at hmem hall
    have h1 : ∀ v ∈ ruleProduced r, v = c :=
      fun v hv => hall v (List.mem_append_left _ hv)
    have h2 : ∀ v ∈ rulesProduced rest, v = c :=
      fun v hv => hall v (List.mem_append_right _ hv)
    show (match evalOneRuleSols captured none none iters r.sols with
          | .error e => (.error e : Except EErr (Option Val × Nat))
          | .ok (next, _, iters2) =>
            match (match next with
                   | none => evalFuncElse captured none iters2 r.els
                   | some v => (.ok (some v, iters2) :
                       Except EErr (Option Val × Nat))) with
            | .error e => .error e
            | .ok (next2, iters3) =>
              evalFuncRules captured
                (match next2 with | some v => some v | none => none)
                iters3 rest) = _
    cases hP : ruleProduced r with
    | nil =>
      have hs : r.sols = [] := by
        cases hs2 : r.sols with
        | nil => rfl
        | cons v vs =>
          have : ruleProduced r = v :: vs := by simp [ruleProduced, hs2]
          rw [hP] at this
          cases this
      have hep : elseProduced r.els = [] := by
        have : ruleProduced r = elseProduced r.els := by simp [ruleProduced, hs]
        rw [hP] at this
        exact this.symm
      rw [hs]
      show (match evalFuncElse captured none iters r.els with
            | .error e => (.error e : Except EErr (Option Val × Nat))
            | .ok (next2, iters3) =>
              evalFuncRules captured
                (match next2 with | some v => some v | none => none)
                iters3 rest) = _
      rw [evalFuncElse_none_empty captured iters r.els hep]
      have hmem2 : c ∈ rulesProduced rest := by
        rcases List.mem_append.mp hmem with hL | hR
        · rw [hP] at hL; cases hL
        · exact hR
      exact ih iters hmem2 h2
    | cons v vs =>
      have hvc : v = c := by
        apply h1
        rw [hP]
        exact List.mem_cons_self v vs
      have hvs : ∀ w ∈ vs, w = v := by
        intro w hw
        rw [hvc]
        apply h1
        rw [hP]
        exact List.mem_cons_of_mem v hw
      have hrest : ∀ w ∈ rulesProduced rest, w = v := by
        intro w hw
        rw [hvc]
        exact h2 w hw
      cases hs : r.sols with
      | nil =>
        show (match evalFuncElse captured none iters r.els with
              | .error e => (.error e : Except EErr (Option Val × Nat))
              | .ok (next2, iters3) =>
                evalFuncRules captured
                  (match next2 with | some v => some v | none => none)
                  iters3 rest) = _
        have hep : elseProduced r.els = v :: vs := by
          have : ruleProduced r = elseProduced r.els := by
            simp [ruleProduced, hs]
          rw [hP] at this
          exact this.symm
        rw [evalFuncElse_none_all_eq captured iters r.els v vs hep hvs]
        subst hvc
        exact evalFuncRules_some_all_eq captured v _ rest hrest
      | cons u us =>
        have huv : u :: us = v :: vs := by
          have : ruleProduced r = u :: us := by simp [ruleProduced, hs]
          rw [hP] at this
          exact this.symm
        injection huv with huv1 huv2
        subst huv1
        subst huv2
        rw [evalOneRuleSols_none_all_eq captured u none iters us hvs]
        subst hvc
        exact evalFuncRules_some_all_eq captured u _ rest hrest

theorem evalFuncRules_none_conflict (captured : Bool) (iters : Nat)
    (rules : List RuleEval)
    (h : ∃ v ∈ rulesProduced rules, ∃ w ∈ rulesProduced rules, v ≠ w) :
    evalFuncRules captured none iters rules = .error .functionConflict := by
  induction rules generalizing iters with
  | nil => simp [rulesProduced] at h
  | cons r rest ih =>
    rw [rulesProduced_cons] at h
    show (match evalOneRuleSols captured none none iters r.sols with
          | .error e => (.error e : Except EErr (Option Val × Nat))
          | .ok (next, _, iters2) =>
            match (match next with
                   | none => evalFuncElse captured none iters2 r.els
                   | some v => (.ok (some v, iters2) :
                       Except EErr (Option Val × Nat))) with
            | .error e => .error e
            | .ok (next2, iters3) =>
              evalFuncRules captured
                (match next2 with | some v => some v | none => none)
                iters3 rest) = _
    cases hP : ruleProduced r with
    | nil =>
      have hs : r.sols = [] := by
        cases hs2 : r.sols with
        | nil => rfl
        | cons v vs =>
          have : ruleProduced r = v :: vs := by simp [ruleProduced, hs2]
          rw [hP] at this
          cases this
      have hep : elseProduced r.els = [] := by
        have : ruleProduced r = elseProduced r.els := by simp [ruleProduced, hs]
        rw [hP] at this
        exact this.symm
      rw [hs]
      show (match evalFuncElse captured none iters r.els with
            | .error e => (.error e : Except EErr (Option Val × Nat))
            | .ok (next2, iters3) =>
              evalFuncRules captured
                (match next2 with | some v => some v | none => none)
                iters3 rest) = _
      rw [evalFuncElse_none_empty captured iters r.els hep]
      apply ih
      rw [hP] at h
      simpa using h
    | cons v vs =>
      by_cases hin : ∀ w ∈ ruleProduced r, w = v
      · have hvs : ∀ w ∈ vs, w = v := by
          intro w hw
          apply hin
          rw [hP]
          exact List.mem_cons_of_mem v hw
        have hrest : ∃ u ∈ rulesProduced rest, u ≠ v := by
          rcases h with ⟨a, ha, b, hb, hab⟩
          rcases List.mem_append.mp ha with haL | haR
          · rcases List.mem_append.mp hb with hbL | hbR
            · exact absurd ((hin a haL).trans (hin b hbL).symm) hab
            · have hav : a = v := hin a haL
              refine ⟨b, hbR, ?_⟩
              intro hbv
              exact hab (hav.trans hbv.symm)
          · by_cases hav : a = v
            · rcases List.mem_append.mp hb with hbL | hbR
              · exact absurd (hav.trans (hin b hbL).symm) hab
              · refine ⟨b, hbR, ?_⟩
                intro hbv
                exact hab (hav.trans hbv.symm)
            · exact ⟨a, haR, hav⟩
        cases hs : r.sols with
        | nil =>
          show (match evalFuncElse captured none iters r.els with
                | .error e => (.error e : Except EErr (Option Val × Nat))
                | .ok (next2, iters3) =>
                  evalFuncRules captured
                    (match next2 with | some v => some v | none => none)
                    iters3 rest) = _
          have hep : elseProduced r.els = v :: vs := by
            have : ruleProduced r = elseProduced r.els := by
              simp [ruleProduced, hs]
            rw [hP] at this
            exact this.symm
          rw [evalFuncElse_none_all_eq captured iters r.els v vs hep hvs]
          exact evalFuncRules_some_conflict captured v _ rest hrest
        | cons u us =>
          have huv : u :: us = v :: vs := by
            have : ruleProduced r = u :: us := by simp [ruleProduced, hs]
            rw [hP] at this
            exact this.symm
          injection huv with huv1 huv2
          subst huv1
          subst huv2
          rw [evalOneRuleSols_none_all_eq captured u none iters us hvs]
          exact evalFuncRules_some_conflict captured u _ rest hrest
      · push_neg at hin
        rcases hin with ⟨w, hw, hwv⟩
        rw [hP] at hw
        have hwvs : w ∈ vs := by
          rcases List.mem_cons.mp hw with h1 | h2
          · exact absurd h1 hwv
          · exact h2
        cases hs : r.sols with
        | nil =>
          show (match evalFuncElse captured none iters r.els with
                | .error e => (.error e : Except EErr (Option Val × Nat))
                | .ok (next2, iters3) =>
                  evalFuncRules captured
                    (match next2 with | some v => some v | none => none)
                    iters3 rest) = _
          have hep : elseProduced r.els = v :: vs := by
            have : ruleProduced r = elseProduced r.els := by
              simp [ruleProduced, hs]
            rw [hP] at this
            exact this.symm
          rw [evalFuncElse_none_conflict captured iters r.els v vs hep
            ⟨w, hwvs, hwv⟩]
        | cons u us =>
          have huv : u :: us = v :: vs := by
            have : ruleProduced r = u :: us := by simp [ruleProduced, hs]
            rw [hP] at this
            exact this.symm
          injection huv with huv1 huv2
          subst huv1
          subst huv2
          rw [evalOneRuleSols_none_conflict captured u none iters us
            ⟨w, hwvs, hwv⟩]

theorem evalFuncValue_characterisation (captured : Bool)
    (rules : List RuleEval) (dflt : Option Val) :
    evalFuncValue captured rules dflt =
      if ∃ v ∈ rulesProduced rules, ∃ w ∈ rulesProduced rules, v ≠ w
      then .error .functionConflict
      else
        match rulesProduced rules, dflt with
        | c :: _, _ =>
          .ok (some c,
            (if (!captured && c = Val.bool false) = true then 0 else 1), false)
        | [], some d =>
          .ok (some d,
            (if (!captured && d = Val.bool false) = true then 0 else 1), true)
        | [], none => .ok (none, 0, false) := by
  by_cases h : ∃ v ∈ rulesProduced rules, ∃ w ∈ rulesProduced rules, v ≠ w
  · rw [if_pos h]
    show (match evalFuncRules captured none 0 rules with
          | .error e => (.error e : Except EErr (Option Val × Nat × Bool))
          | .ok (prev, iters) =>
            match prev, dflt with
            | none, some d =>
              match evalOneRuleSols captured none none iters [d] with
              | .error e => .error e
              | .ok (next, _, iters2) => .ok (next, iters2, true)
            | _, _ => .ok (prev, iters, false)) = _
    rw [evalFuncRules_none_conflict captured 0 rules h]
  · rw [if_neg h]
    push_neg at h
    show (match evalFuncRules captured none 0 rules with
          | .error e => (.error e : Except EErr (Option Val × Nat × Bool))
          | .ok (prev, iters) =>
            match prev, dflt with
            | none, some d =>
              match evalOneRuleSols captured none none iters [d] with
              | .error e => .error e
              | .ok (next, _, iters2) => .ok (next, iters2, true)
            | _, _ => .ok (prev, iters, false)) = _
    cases hP : rulesProduced rules with
    | nil =>
      rw [evalFuncRules_none_empty captured 0 rules hP]
      cases dflt with
      | some d =>
        show (match evalOneRuleSols captured none none 0 [d] with
              | .error e => (.error e : Except EErr (Option Val × Nat × Bool))
              | .ok (next, _, iters2) => .ok (next, iters2, true)) = _
        rw [evalOneRuleSols_none_all_eq captured d none 0 []
          (by intro w hw; cases hw)]
        simp
      | none => rfl
    | cons c l =>
      have hmem : c ∈ rulesProduced rules := by
        rw [hP]
        exact List.mem_cons_self c l
      have hall : ∀ v ∈ rulesProduced rules, v = c :=
        fun v hv => h v hv c hmem
      rw [evalFuncRules_none_all_eq captured 0 rules c hmem hall]
      simp

/-- C5: on a function cache miss, two rules producing equal output values
for the same arguments are allowed and deduplicated (the continuation runs
at most once); rules producing distinct values raise `functionConflict`;
and the default rule is evaluated exactly when no non-default rule produced
a result. -/
theorem claim_C5_functionConflict (captured : Bool) (rules : List RuleEval)
    (dflt : Option Val) :
    (evalFuncValue captured rules dflt = .error .functionConflict ↔
      ∃ v ∈ rulesProduced rules, ∃ w ∈ rulesProduced rules, v ≠ w) ∧
    ((∀ v ∈ rulesProduced rules, ∀ w ∈ rulesProduced rules, v = w) →
      ∃ r n b, evalFuncValue captured rules dflt = .ok (r, n, b) ∧ n ≤ 1 ∧
        (b = true ↔ rulesProduced rules = [] ∧ dflt.isSome = true)) := by
  constructor
  · rw [evalFuncValue_characterisation]
    by_cases h : ∃ v ∈ rulesProduced rules, ∃ w ∈ rulesProduced rules, v ≠ w
    · rw [if_pos h]
      simp only [true_iff]
      exact h
    · rw [if_neg h]
      constructor
      · intro hcontr
        exfalso
        cases hP : rulesProduced rules with
        | nil =>
          rw [hP] at hcontr
          cases dflt with
          | some d => cases hcontr
          | none => cases hcontr
        | cons c l =>
          rw [hP] at hcontr
          cases hcontr
      · intro hcontr
        exact absurd hcontr h
  · intro hcf
    have h : ¬∃ v ∈ rulesProduced rules, ∃ w ∈ rulesProduced rules, v ≠ w := by
      rintro ⟨v, hv, w, hw, hvw⟩
      exact hvw (hcf v hv w hw)
    rw [evalFuncValue_characterisation, if_neg h]
    cases hP : rulesProduced rules with
    | nil =>
      cases dflt with
      | some d =>
        refine ⟨some d,
          (if (!captured && d = Val.bool false) = true then 0 else 1), true,
          rfl, ?_, ?_⟩
        · split <;> omega
        · simp
      | none =>
        exact ⟨none, 0, false, rfl, by omega, by simp⟩
    | cons c l =>
      refine ⟨some c,
        (if (!captured && c = Val.bool false) = true then 0 else 1), false,
        rfl, ?_, ?_⟩
      · split <;> omega
      · simp

theorem claim_C5_functionConflict_witness :
    evalFuncValue true [⟨[Val.num 1], []⟩, ⟨[Val.num 2], []⟩] none =
      .error .functionConflict ∧
    (∃ r n b,
      evalFuncValue true [⟨[Val.num 1], []⟩, ⟨[Val.num 1], []⟩] none =
        .ok (r, n, b) ∧ n ≤ 1 ∧
      (b = true ↔
        rulesProduced [⟨[Val.num 1], []⟩, ⟨[Val.num 1], []⟩] = [] ∧
        (none : Option Val).isSome = true)) := by
  constructor
  · exact (claim_C5_functionConflict true
      [⟨[Val.num 1], []⟩, ⟨[Val.num 2], []⟩] none).1.mpr
      ⟨Val.num 1, by simp [rulesProduced, ruleProduced],
       Val.num 2, by simp [rulesProduced, ruleProduced], by simp⟩
  · exact (claim_C5_functionConflict true
      [⟨[Val.num 1], []⟩, ⟨[Val.num 1], []⟩] none).2 (by decide)

/-! ### C4: `with` state restoration -/

theorem mergeTermPair_isSome (acc : Option Val) (pv : RefPath × Val) :
    (mergeTermPair acc pv).isSome := by
  obtain ⟨path, v⟩ := pv
  cases path with
  | nil => rfl
  | cons k rest =>
    cases acc with
    | none => rfl
    | some cur =>
      show (match mergeVals (makeTree (k :: rest) v) cur with
            | some merged => some merged
            | none => some (makeTree (k :: rest) v)).isSome = true
      cases mergeVals (makeTree (k :: rest) v) cur <;> rfl

theorem foldl_mergeTermPair_isSome (pairs : List (RefPath × Val))
    (acc : Option Val) (h : pairs ≠ []) :
    (pairs.foldl mergeTermPair acc).isSome := by
  induction pairs generalizing acc with
  | nil => exact absurd rfl h
  | cons pv rest ih =>
    rw [List.foldl_cons]
    cases rest with
    | nil => exact mergeTermPair_isSome acc pv
    | cons pv2 rest2 => exact ih _ (by simp)

theorem mergeTermWithValues_none (exist : Option Val)
    (pairs : List (RefPath × Val))
    (h : mergeTermWithValues exist pairs = none) : exist = none := by
  cases pairs with
  | nil => exact h
  | cons pv rest =>
    have hs := foldl_mergeTermPair_isSome (pv :: rest) exist (by simp)
    rw [show mergeTermWithValues exist (pv :: rest) =
      (pv :: rest).foldl mergeTermPair exist from rfl] at h
    rw [h] at hs
    cases hs

theorem evalWithPop_evalWithPush_restore (inp data : Option Val)
    (mocks : List (RefPath × Val)) (targets disable : List RefPath)
    (s t : EvalState)
    (hinp : inp = none → s.input = none) (hdata : data = none → s.data = none)
    (hfp : FramePreserved (evalWithPush inp data mocks targets disable s).1 t) :
    evalWithPop (evalWithPush inp data mocks targets disable s).2.1
      (evalWithPush inp data mocks targets disable s).2.2 t = s := by
  obtain ⟨hti, htd, htm, htt, htdis, htvt, _, htct, _⟩ := hfp
  cases inp <;> cases data <;>
    (apply EvalState.ext <;>
      first
        | rfl
        | exact (hinp rfl).symm
        | exact (hdata rfl).symm
        | (show t.functionMocks.tail = s.functionMocks
           rw [htm]; rfl)
        | (show t.targetStack.tail = s.targetStack
           rw [htt]; rfl)
        | (show t.inliningDisable.tail = s.inliningDisable
           rw [htdis]; rfl)
        | (show t.virtualCache.tail = s.virtualCache
           rw [htvt]; rfl)
        | (show t.comprehensionCache.tail = s.comprehensionCache
           rw [htct]; rfl))

theorem evalWithLoop_cons (inp data : Option Val)
    (mocks : List (RefPath × Val)) (targets disable : List RefPath)
    (next : EvalState → EvalState × Option EErr)
    (m : EvalState → EvalState) (rest : List (EvalState → EvalState))
    (acc : EvalState × Option Val × Option Val) (log : List EvalState) :
    evalWithLoop inp data mocks targets disable next (m :: rest) acc log =
      (match (next (evalWithPop acc.2.1 acc.2.2 (m acc.1))).2 with
       | some e =>
         (evalWithPush inp data mocks targets disable
           (next (evalWithPop acc.2.1 acc.2.2 (m acc.1))).1, some e,
          log ++ [evalWithPop acc.2.1 acc.2.2 (m acc.1)])
       | none =>
         evalWithLoop inp data mocks targets disable next rest
           (evalWithPush inp data mocks targets disable
             (next (evalWithPop acc.2.1 acc.2.2 (m acc.1))).1)
           (log ++ [evalWithPop acc.2.1 acc.2.2 (m acc.1)])) := rfl

theorem evalWithLoop_restore (inp data : Option Val)
    (mocks : List (RefPath × Val)) (targets disable : List RefPath)
    (next : EvalState → EvalState × Option EErr) (s : EvalState)
    (hinp : inp = none → s.input = none) (hdata : data = none → s.data = none)
    (hn : ∀ t, (next t).1 = t) :
    ∀ (muts : List (EvalState → EvalState)) (log : List EvalState),
      (∀ m ∈ muts, ∀ t, FramePreserved t (m t)) →
      (evalWithLoop inp data mocks targets disable next muts
        (evalWithPush inp data mocks targets disable s) log).1 =
        evalWithPush inp data mocks targets disable s ∧
      (∀ t ∈ (evalWithLoop inp data mocks targets disable next muts
        (evalWithPush inp data mocks targets disable s) log).2.2,
        t ∈ log ∨ t = s) := by
  intro muts
  induction muts with
  | nil =>
    intro log _
    exact ⟨rfl, fun t ht => Or.inl ht⟩
  | cons m rest ih =>
    intro log hm
    have hs2 : evalWithPop
        (evalWithPush inp data mocks targets disable s).2.1
        (evalWithPush inp data mocks targets disable s).2.2
        (m (evalWithPush inp data mocks targets disable s).1) = s :=
      evalWithPop_evalWithPush_restore inp data mocks targets disable s _
        hinp hdata (hm m (List.mem_cons_self m rest) _)
    rw [evalWithLoop_cons, hs2, hn s]
    cases hr2 : (next s).2 with
    | some e =>
      refine ⟨rfl, fun t ht => ?_⟩
      rcases List.mem_append.mp ht with h1 | h2
      · exact Or.inl h1
      · rcases List.mem_singleton.mp h2 with h3
        exact Or.inr h3
    | none =>
      obtain ⟨h1, h2⟩ := ih (log ++ [s])
        (fun m2 hm2 => hm m2 (List.mem_cons_of_mem m hm2))
      refine ⟨h1, fun t ht => ?_⟩
      rcases h2 t ht with h3 | h4
      · rcases List.mem_append.mp h3 with h5 | h6
        · exact Or.inl h5
        · exact Or.inr (List.mem_singleton.mp h6)
      · exact Or.inr h4

/-- C4: after a `with` expression completes (with or without an error), the
input term, data term, function-mock stack, target stack, inlining-disable
list, and the virtual-cache and comprehension-cache scope stacks are
restored to their pre-entry state; and the replacement scopes are popped
before the continuation for the remainder of the body runs — every state
the continuation observes equals the pre-entry state.  Hypotheses: each
solution of the expression only mutates the freshly pushed scopes
(`FramePreserved`), and the body continuation is state-preserving. -/
theorem claim_C4_evalWith (pairsInput pairsData : List (RefPath × Val))
    (mocks : List (RefPath × Val)) (targets disable : List RefPath)
    (sb : StepBehavior) (next : EvalState → EvalState × Option EErr)
    (s : EvalState)
    (hm : ∀ m ∈ sb.muts, ∀ t, FramePreserved t (m t))
    (hf : ∀ t, FramePreserved t (sb.fin t))
    (hn : ∀ t, (next t).1 = t) :
    (evalWith pairsInput pairsData mocks targets disable sb next s).1 = s ∧
    (∀ t ∈ (evalWith pairsInput pairsData mocks targets disable sb next s).2.2,
      t = s) := by
  have hinp : mergeTermWithValues s.input pairsInput = none → s.input = none :=
    mergeTermWithValues_none s.input pairsInput
  have hdata : mergeTermWithValues s.data pairsData = none → s.data = none :=
    mergeTermWithValues_none s.data pairsData
  obtain ⟨hacc, hlog⟩ := evalWithLoop_restore
    (mergeTermWithValues s.input pairsInput)
    (mergeTermWithValues s.data pairsData) mocks targets disable next s
    hinp hdata hn sb.muts [] hm
  constructor
  · show evalWithPop _ _ (sb.fin _) = s
    rw [hacc]
    exact evalWithPop_evalWithPush_restore _ _ mocks targets disable s _
      hinp hdata (hf _)
  · intro t ht
    rcases hlog t ht with h1 | h2
    · cases h1
    · exact h2

theorem claim_C4_evalWith_witness :
    (evalWith [([Val.str "a"], Val.num 1)] [] [] [] []
      ⟨[fun t => t], fun t => t⟩ (fun t => (t, none))
      ⟨some (Val.obj []), none, [], [], [], [[]], [[]]⟩).1 =
      ⟨some (Val.obj []), none, [], [], [], [[]], [[]]⟩ ∧
    (∀ t ∈ (evalWith [([Val.str "a"], Val.num 1)] [] [] [] []
      ⟨[fun t => t], fun t => t⟩ (fun t => (t, none))
      ⟨some (Val.obj []), none, [], [], [], [[]], [[]]⟩).2.2,
      t = ⟨some (Val.obj []), none, [], [], [], [[]], [[]]⟩) :=
  claim_C4_evalWith [([Val.str "a"], Val.num 1)] [] [] [] []
    ⟨[fun t => t], fun t => t⟩ (fun t => (t, none))
    ⟨some (Val.obj []), none, [], [], [], [[]], [[]]⟩
    (by
      intro m hm t
      rcases List.mem_singleton.mp hm with h
      subst h
      exact ⟨rfl, rfl, rfl, rfl, rfl, rfl, rfl, rfl, rfl⟩)
    (fun t => ⟨rfl, rfl, rfl, rfl, rfl, rfl, rfl, rfl, rfl⟩)
    (fun _ => rfl)

end Spec2Proof
